import Mathlib

/-!
Verification of the peer-to-peer chat core of `chat_app_unified.py`.

The development shallowly embeds the parts of the program the claims are
about:

* the wire codec (`pack_payload` / `unpack_payload`), including the JSON
  serializer and parser they rely on (Python `json.dumps` / `json.loads`,
  modelled for JSON values whose numbers are integers; floats are outside
  the model), the repeating-key XOR cipher, the `SHA-256(key || data)`
  integrity tag, hex encoding and decoding, and strict UTF-8 decoding;
* the per-peer history store (`record_history`, `keep_last_n`,
  `keep_last_days`) with its ping cap;
* the inbound connection handler (`handle_conn`) as a pure transition on
  the peer registry and history, with the sent replies and UI display
  calls collected as effects;
* the probe-selection logic of the liveness loop (`check_peers_online`).

Strings are modelled as lists of Unicode code points (`List Nat`), bytes
as lists of naturals below 256.  Wall-clock timestamps and the
`datetime.strptime` parser with its fixed format are abstracted as
parameters where the code only threads them through.
-/

namespace Chat

/-- Byte strings and code-point strings are both lists of naturals. -/
abbrev Bytes := List Nat

/-! ### JSON values

The wire envelopes are JSON documents.  `Json` is the value space of the
model: Python `None`, booleans, integers, strings (arbitrary code
points), arrays and objects.  Arrays and objects are spelled as mutual
inductives so that structural recursion and induction stay elementary. -/

mutual

inductive Json where
  | null : Json
  | bool (b : Bool) : Json
  | num (n : Int) : Json
  | str (s : Bytes) : Json
  | arr (l : JArr) : Json
  | obj (ms : JObj) : Json
  deriving DecidableEq

inductive JArr where
  | nil : JArr
  | cons (hd : Json) (tl : JArr) : JArr
  deriving DecidableEq

inductive JObj where
  | nil : JObj
  | cons (k : Bytes) (v : Json) (tl : JObj) : JObj
  deriving DecidableEq

end

/-- First binding of key `k` in an object, as Python `dict.get` on the
deduplicated dictionaries that `json.loads` produces. -/
def JObj.get : JObj → Bytes → Option Json
  | .nil, _ => none
  | .cons k v tl, key => if k = key then some v else tl.get key

/-- Key membership, Python `k in obj`. -/
def JObj.hasKey (ms : JObj) (key : Bytes) : Bool :=
  (ms.get key).isSome

/-- Decimal digits of a natural number, most significant first, as ASCII
codes (`str(n)` for a nonnegative `int`). -/
def natToDec (n : Nat) : Bytes :=
  if h : n < 10 then [48 + n]
  else natToDec (n / 10) ++ [48 + n % 10]
decreasing_by exact Nat.div_lt_self (by omega) (by omega)

/-- Python `str(i)` for an `int`. -/
def intToDec (i : Int) : Bytes :=
  if i < 0 then 45 :: natToDec i.natAbs else natToDec i.natAbs

/-- Lowercase hex digit for a value below 16. -/
def hexDig (d : Nat) : Nat :=
  if d < 10 then 48 + d else 87 + d

/-- Four-digit lowercase hex rendering of `n < 0x10000`, used by the
`\uXXXX` escapes of `json.dumps(..., ensure_ascii=True)`. -/
def toHex4 (n : Nat) : Bytes :=
  [hexDig (n / 4096 % 16), hexDig (n / 256 % 16), hexDig (n / 16 % 16), hexDig (n % 16)]

/-- `json.dumps` escaping of one character of a string under
`ensure_ascii=True`: printable ASCII other than quote and backslash is
copied, quote, backslash and the control shorthands get two-character
escapes, everything else becomes `\uXXXX`, with a surrogate pair for
code points beyond the BMP. -/
def escChar (c : Nat) : Bytes :=
  if c = 34 then [92, 34]
  else if c = 92 then [92, 92]
  else if c = 8 then [92, 98]
  else if c = 9 then [92, 116]
  else if c = 10 then [92, 110]
  else if c = 12 then [92, 102]
  else if c = 13 then [92, 114]
  else if 32 ≤ c ∧ c ≤ 126 then [c]
  else if c < 65536 then 92 :: 117 :: toHex4 c
  else
    92 :: 117 :: toHex4 (55296 + (c - 65536) / 1024) ++
      (92 :: 117 :: toHex4 (56320 + (c - 65536) % 1024))

/-- Escape a whole string body. -/
def escStr : Bytes → Bytes
  | [] => []
  | c :: rest => escChar c ++ escStr rest

mutual

/-- `json.dumps(obj)` with the default separators `", "` and `": "` and
`ensure_ascii=True`; the output is a list of ASCII codes, which is also
its UTF-8 byte encoding. -/
def dumps : Json → Bytes
  | .null => [110, 117, 108, 108]
  | .bool true => [116, 114, 117, 101]
  | .bool false => [102, 97, 108, 115, 101]
  | .num i => intToDec i
  | .str s => 34 :: escStr s ++ [34]
  | .arr .nil => [91, 93]
  | .arr (.cons x xs) => 91 :: dumps x ++ dumpsArrTail xs ++ [93]
  | .obj .nil => [123, 125]
  | .obj (.cons k v ms) =>
      123 :: (34 :: escStr k ++ [34, 58, 32]) ++ dumps v ++ dumpsObjTail ms ++ [125]

/-- Remaining array elements, each preceded by `", "`. -/
def dumpsArrTail : JArr → Bytes
  | .nil => []
  | .cons x xs => 44 :: 32 :: dumps x ++ dumpsArrTail xs

/-- Remaining object members, each preceded by `", "`. -/
def dumpsObjTail : JObj → Bytes
  | .nil => []
  | .cons k v ms => 44 :: 32 :: (34 :: escStr k ++ [34, 58, 32]) ++ dumps v ++ dumpsObjTail ms

end

/-! ### Well-formed JSON values

Python values that survive `json.dumps`/`json.loads` unchanged: object
keys are pairwise distinct (a `dict` cannot carry duplicates) and string
code points are Unicode scalar values (a lone surrogate is round-tripped
unfaithfully by CPython itself, since the loader recombines adjacent
surrogate escapes). -/

/-- Unicode scalar value: below `0x110000` and not a surrogate. -/
def scalar (c : Nat) : Bool :=
  decide (c < 1114112) && !(decide (55296 ≤ c) && decide (c ≤ 57343))

mutual

/-- Well-formedness of a JSON value (see the section comment). -/
def Json.wf : Json → Bool
  | .null => true
  | .bool _ => true
  | .num _ => true
  | .str s => s.all scalar
  | .arr l => l.wfA
  | .obj ms => ms.wfO

/-- Well-formedness of every array element. -/
def JArr.wfA : JArr → Bool
  | .nil => true
  | .cons x xs => x.wf && xs.wfA

/-- Well-formedness of an object: keys are scalar strings, values are
well-formed, and no key repeats. -/
def JObj.wfO : JObj → Bool
  | .nil => true
  | .cons k v ms => k.all scalar && v.wf && !(ms.hasKey k) && ms.wfO

end

/-! ### JSON parser (`json.loads`)

A recursive-descent parser over code points matching CPython's strict
scanner: the same whitespace set, the same escape handling including
surrogate-pair recombination, string keys only, raw control characters
rejected inside strings, and the JSON integer grammar.  Numbers with a
fraction or exponent are floats and fall outside the model, so the
parser rejects them.  Nesting is handled with a fuel argument; `parse`
supplies fuel exceeding the input length, which suffices for every
document (CPython instead recurses on the C stack). -/

/-- JSON whitespace (space, tab, linefeed, carriage return). -/
def isWs (c : Nat) : Bool :=
  c = 32 || c = 9 || c = 10 || c = 13

/-- Skip leading whitespace. -/
def skipWs (s : Bytes) : Bytes :=
  s.dropWhile isWs

/-- ASCII decimal digit test. -/
def isDigit (c : Nat) : Bool :=
  48 ≤ c && c ≤ 57

/-- Value of one hex digit, either case. -/
def hexVal (c : Nat) : Option Nat :=
  if 48 ≤ c ∧ c ≤ 57 then some (c - 48)
  else if 97 ≤ c ∧ c ≤ 102 then some (c - 87)
  else if 65 ≤ c ∧ c ≤ 70 then some (c - 55)
  else none

/-- Value of four hex digits. -/
def hex4Val (a b c d : Nat) : Option Nat := do
  let va ← hexVal a
  let vb ← hexVal b
  let vc ← hexVal c
  let vd ← hexVal d
  pure (4096 * va + 256 * vb + 16 * vc + vd)

/-- Lookahead after a high-surrogate `\uXXXX` escape: when a low
surrogate escape follows immediately, recombine the pair (consuming 10
characters), otherwise keep the lone value (consuming 4). -/
def uEscapeTail (hi : Nat) : Bytes → Option (Nat × Nat)
  | c1 :: c2 :: e1 :: f1 :: g1 :: h1 :: _ =>
    if c1 = 92 ∧ c2 = 117 then
      match hex4Val e1 f1 g1 h1 with
      | none => some (hi, 4)
      | some lo =>
        if 56320 ≤ lo ∧ lo ≤ 57343 then
          some (65536 + (hi - 55296) * 1024 + (lo - 56320), 10)
        else some (hi, 4)
    else some (hi, 4)
  | _ => some (hi, 4)

/-- Decode one `\uXXXX` escape starting at the four hex digits,
recombining an immediately following low-surrogate escape after a high
surrogate, as the CPython scanner does.  Returns the code point and the
number of characters consumed (4, or 10 for a surrogate pair). -/
def uEscape : Bytes → Option (Nat × Nat)
  | a :: b :: c :: d :: r3 =>
    (match hex4Val a b c d with
     | none => none
     | some hi =>
       if 55296 ≤ hi ∧ hi ≤ 56319 then uEscapeTail hi r3
       else some (hi, 4))
  | _ => none

/-- Parse the body of a string after the opening quote: printable
characters are copied, the short escapes and `\uXXXX` (with surrogate
recombination via `uEscape`) are decoded, raw control characters are
rejected (`strict=True`). -/
def parseStrBody : Bytes → Option (Bytes × Bytes)
  | [] => none
  | c :: rest =>
    if c = 34 then some ([], rest)
    else if c = 92 then
      match rest with
      | [] => none
      | e :: r2 =>
        if e = 34 then (parseStrBody r2).map fun p => (34 :: p.1, p.2)
        else if e = 92 then (parseStrBody r2).map fun p => (92 :: p.1, p.2)
        else if e = 47 then (parseStrBody r2).map fun p => (47 :: p.1, p.2)
        else if e = 98 then (parseStrBody r2).map fun p => (8 :: p.1, p.2)
        else if e = 102 then (parseStrBody r2).map fun p => (12 :: p.1, p.2)
        else if e = 110 then (parseStrBody r2).map fun p => (10 :: p.1, p.2)
        else if e = 114 then (parseStrBody r2).map fun p => (13 :: p.1, p.2)
        else if e = 116 then (parseStrBody r2).map fun p => (9 :: p.1, p.2)
        else if e = 117 then
          match uEscape r2 with
          | none => none
          | some (cp, n) => (parseStrBody (r2.drop n)).map fun p => (cp :: p.1, p.2)
        else none
    else if c < 32 then none
    else (parseStrBody rest).map fun p => (c :: p.1, p.2)
termination_by s => s.length
decreasing_by
  all_goals simp_all [List.length_cons, List.length_drop]
  all_goals omega

/-- Fold decimal digits to a natural number. -/
def decVal (ds : Bytes) : Nat :=
  ds.foldl (fun a c => 10 * a + (c - 48)) 0

/-- True when a number token would continue as a float (fraction dot or
exponent letter follows the digits). -/
def floatish : Bytes → Bool
  | [] => false
  | c :: _ => c = 46 || c = 101 || c = 69

/-- Parse an unsigned JSON integer: one or more digits, no redundant
leading zero, and not followed by a fraction or exponent (floats are
outside the model). -/
def parseNatNum (s : Bytes) : Option (Nat × Bytes) :=
  let ds := s.takeWhile isDigit
  let rest := s.drop ds.length
  match ds with
  | [] => none
  | d :: ds' =>
    if d = 48 ∧ ds' ≠ [] then none
    else if floatish rest then none
    else some (decVal ds, rest)

/-- Parse a JSON integer with optional leading minus. -/
def parseNum (s : Bytes) : Option (Json × Bytes) :=
  match s with
  | [] => none
  | c :: r =>
    if c = 45 then (parseNatNum r).map fun p => (Json.num (-(p.1 : Int)), p.2)
    else (parseNatNum (c :: r)).map fun p => (Json.num (p.1 : Int), p.2)

/-- Consume an expected literal tail. -/
def dropLit : Bytes → Bytes → Option Bytes
  | [], s => some s
  | _ :: _, [] => none
  | c :: cs, d :: ds => if c = d then dropLit cs ds else none

/-- Insert a parsed member the way the CPython scanner inserts into the
result `dict`: a repeated key keeps its first position and takes the
latest value. -/
def JObj.insertPy (k : Bytes) (v : Json) : JObj → JObj
  | .nil => .cons k v .nil
  | .cons k0 v0 tl => if k0 = k then .cons k0 v tl else .cons k0 v0 (tl.insertPy k v)

/-- Remove the (single) binding of `k`. -/
def JObj.erasePy : JObj → Bytes → JObj
  | .nil, _ => .nil
  | .cons k0 v0 tl, k => if k0 = k then tl else .cons k0 v0 (tl.erasePy k)

/-- Front-merge used when members are assembled right to left: the result
equals inserting `(k, v)` first and the already-merged `ms` afterwards. -/
def JObj.mergeFront (k : Bytes) (v : Json) (ms : JObj) : JObj :=
  match ms.get k with
  | some v' => .cons k v' (ms.erasePy k)
  | none => .cons k v ms

mutual

/-- Parse one JSON value; `none` on malformed input or exhausted fuel. -/
def pVal : Nat → Bytes → Option (Json × Bytes)
  | 0, _ => none
  | f + 1, s =>
    match skipWs s with
    | [] => none
    | c :: r =>
      if c = 123 then
        if (skipWs r).head? = some 125 then some (Json.obj .nil, (skipWs r).tail)
        else (pMems f r).map fun p => (Json.obj p.1, p.2)
      else if c = 91 then
        if (skipWs r).head? = some 93 then some (Json.arr .nil, (skipWs r).tail)
        else (pElems f r).map fun p => (Json.arr p.1, p.2)
      else if c = 34 then
        (parseStrBody r).map fun p => (Json.str p.1, p.2)
      else if c = 110 then (dropLit [117, 108, 108] r).map fun r2 => (Json.null, r2)
      else if c = 116 then (dropLit [114, 117, 101] r).map fun r2 => (Json.bool true, r2)
      else if c = 102 then (dropLit [97, 108, 115, 101] r).map fun r2 => (Json.bool false, r2)
      else parseNum (c :: r)

/-- Parse one or more comma-separated array elements and the closing
bracket. -/
def pElems : Nat → Bytes → Option (JArr × Bytes)
  | 0, _ => none
  | f + 1, s =>
    match pVal f s with
    | none => none
    | some (v, r) =>
      if (skipWs r).head? = some 44 then
        (pElems f (skipWs r).tail).map fun p => (JArr.cons v p.1, p.2)
      else if (skipWs r).head? = some 93 then some (JArr.cons v .nil, (skipWs r).tail)
      else none

/-- Parse one or more `"key": value` members and the closing brace. -/
def pMems : Nat → Bytes → Option (JObj × Bytes)
  | 0, _ => none
  | f + 1, s =>
    match skipWs s with
    | [] => none
    | c :: r =>
      if c = 34 then
        match parseStrBody r with
        | none => none
        | some (k, r2) =>
          if (skipWs r2).head? = some 58 then
            match pVal f (skipWs r2).tail with
            | none => none
            | some (v, r4) =>
              if (skipWs r4).head? = some 44 then
                (pMems f (skipWs r4).tail).map fun p => (JObj.mergeFront k v p.1, p.2)
              else if (skipWs r4).head? = some 125 then
                some (JObj.cons k v .nil, (skipWs r4).tail)
              else none
          else none
      else none

end

/-- `json.loads` on a code-point string: parse one value and require
only whitespace afterwards. -/
def parseJson (s : Bytes) : Option Json :=
  match pVal (s.length + 1) s with
  | some (j, rest) => if skipWs rest = [] then some j else none
  | none => none

/-! ### Strict UTF-8 decoding (`bytes.decode("utf-8")`)

CPython's strict decoder: ASCII, the two- to four-byte forms with their
exact lead/continuation ranges, no overlong forms, no surrogates. -/

/-- UTF-8 continuation byte. -/
def contB (c : Nat) : Bool :=
  128 ≤ c && c ≤ 191

/-- Decode one UTF-8 sequence: given the lead byte and the following
bytes, return the code point and how many continuation bytes were
consumed.  Lead and continuation ranges are exactly CPython's strict
decoder (no overlong forms, no surrogates). -/
def utf8Step (b : Nat) : Bytes → Option (Nat × Nat)
  | [] => if b < 128 then some (b, 0) else none
  | c :: r1 =>
    if b < 128 then some (b, 0)
    else if 194 ≤ b ∧ b ≤ 223 then
      (if contB c then some ((b - 192) * 64 + (c - 128), 1) else none)
    else
      match r1 with
      | [] => none
      | d :: r2 =>
        if 224 ≤ b ∧ b ≤ 239 then
          (if (if b = 224 then 160 ≤ c && c ≤ 191
               else if b = 237 then 128 ≤ c && c ≤ 159
               else contB c) && contB d then
            some ((b - 224) * 4096 + (c - 128) * 64 + (d - 128), 2)
          else none)
        else
          match r2 with
          | [] => none
          | e :: _ =>
            if 240 ≤ b ∧ b ≤ 244 then
              (if (if b = 240 then 144 ≤ c && c ≤ 191
                   else if b = 244 then 128 ≤ c && c ≤ 143
                   else contB c) && contB d && contB e then
                some ((b - 240) * 262144 + (c - 128) * 4096 + (d - 128) * 64 + (e - 128), 3)
              else none)
            else none

/-- Strict UTF-8 decoding of a byte string to code points. -/
def decodeUtf8 : Bytes → Option Bytes
  | [] => some []
  | b :: r =>
    match utf8Step b r with
    | none => none
    | some (cp, n) => (decodeUtf8 (r.drop n)).map (cp :: ·)
termination_by s => s.length
decreasing_by simp_all [List.length_cons, List.length_drop]; omega

/-! ### SHA-256

Executable SHA-256 over byte lists, as `hashlib.sha256`; words are
naturals reduced modulo `2 ^ 32`. -/

/-- Round constants. -/
def shaK : List Nat :=
  [1116352408, 1899447441, 3049323471, 3921009573, 961987163, 1508970993, 2453635748,
   2870763221, 3624381080, 310598401, 607225278, 1426881987, 1925078388, 2162078206,
   2614888103, 3248222580, 3835390401, 4022224774, 264347078, 604807628, 770255983,
   1249150122, 1555081692, 1996064986, 2554220882, 2821834349, 2952996808, 3210313671,
   3336571891, 3584528711, 113926993, 338241895, 666307205, 773529912, 1294757372,
   1396182291, 1695183700, 1986661051, 2177026350, 2456956037, 2730485921, 2820302411,
   3259730800, 3345764771, 3516065817, 3600352804, 4094571909, 275423344, 430227734,
   506948616, 659060556, 883997877, 958139571, 1322822218, 1537002063, 1747873779,
   1955562222, 2024104815, 2227730452, 2361852424, 2428436474, 2756734187, 3204031479,
   3329325298]

/-- Initial hash state. -/
def shaH0 : List Nat :=
  [1779033703, 3144134277, 1013904242, 2773480762, 1359893119, 2600822924, 528734635,
   1541459225]

/-- 32-bit right rotation. -/
def rotr32 (n x : Nat) : Nat :=
  ((x >>> n) ||| (x <<< (32 - n))) % 4294967296

/-- Big sigma 0. -/
def bsig0 (x : Nat) : Nat :=
  rotr32 2 x ^^^ rotr32 13 x ^^^ rotr32 22 x

/-- Big sigma 1. -/
def bsig1 (x : Nat) : Nat :=
  rotr32 6 x ^^^ rotr32 11 x ^^^ rotr32 25 x

/-- Small sigma 0. -/
def ssig0 (x : Nat) : Nat :=
  rotr32 7 x ^^^ rotr32 18 x ^^^ (x >>> 3)

/-- Small sigma 1. -/
def ssig1 (x : Nat) : Nat :=
  rotr32 17 x ^^^ rotr32 19 x ^^^ (x >>> 10)

/-- Choice function. -/
def chF (e f g : Nat) : Nat :=
  (e &&& f) ^^^ ((4294967295 ^^^ e) &&& g)

/-- Majority function. -/
def majF (a b c : Nat) : Nat :=
  (a &&& b) ^^^ (a &&& c) ^^^ (b &&& c)

/-- Big-endian bytes of a value, given the byte width. -/
def toBytesBE : Nat → Nat → Bytes
  | 0, _ => []
  | w + 1, v => toBytesBE w (v / 256) ++ [v % 256]

/-- Big-endian 32-bit words of a byte string. -/
def wordsOfBytes : Bytes → List Nat
  | a :: b :: c :: d :: r => (16777216 * a + 65536 * b + 256 * c + d) :: wordsOfBytes r
  | _ => []

/-- SHA-256 padding: `0x80`, zeros to 56 mod 64, 8-byte bit length. -/
def shaPad (msg : Bytes) : Bytes :=
  msg ++ 128 :: List.replicate ((119 - msg.length % 64) % 64) 0 ++ toBytesBE 8 (8 * msg.length)

/-- Extend the 16 block words by `n` more schedule words. -/
def schedLoop (w : List Nat) : Nat → List Nat
  | 0 => w
  | n + 1 =>
    let i := w.length
    let x := (w.getD (i - 16) 0 + ssig0 (w.getD (i - 15) 0) + w.getD (i - 7) 0 +
      ssig1 (w.getD (i - 2) 0)) % 4294967296
    schedLoop (w ++ [x]) n

/-- One compression round on the state `[a, b, c, d, e, f, g, h]`. -/
def shaRound (k w : Nat) : List Nat → List Nat
  | [a, b, c, d, e, f, g, h] =>
    let t1 := (h + bsig1 e + chF e f g + k + w) % 4294967296
    let t2 := (bsig0 a + majF a b c) % 4294967296
    [(t1 + t2) % 4294967296, a, b, c, (d + t1) % 4294967296, e, f, g]
  | st => st

/-- All 64 rounds. -/
def shaRounds : List (Nat × Nat) → List Nat → List Nat
  | [], st => st
  | (k, w) :: r, st => shaRounds r (shaRound k w st)

/-- Compress one 64-byte block into the hash state. -/
def shaCompress (h : List Nat) (block : Bytes) : List Nat :=
  let ws := schedLoop (wordsOfBytes block) 48
  let st := shaRounds (shaK.zip ws) h
  (h.zip st).map fun p => (p.1 + p.2) % 4294967296

/-- Split into 64-byte chunks. -/
def chunks64 : Bytes → List Bytes
  | [] => []
  | b :: r => (b :: r).take 64 :: chunks64 ((b :: r).drop 64)
termination_by l => l.length
decreasing_by
  simp [List.length_drop]
  omega

/-- SHA-256 digest bytes. -/
def sha256bytes (msg : Bytes) : Bytes :=
  (((chunks64 (shaPad msg)).foldl shaCompress shaH0).map (toBytesBE 4)).flatten

/-! ### Hex, lowercase, XOR, and the codec -/

/-- Lowercase hex rendering of a byte string (`bytes.hex()` and the
tail end of `hexdigest()`). -/
def bytesToHex : Bytes → Bytes
  | [] => []
  | b :: r => hexDig (b / 16) :: hexDig (b % 16) :: bytesToHex r

/-- Hexdigest of SHA-256, as a code-point string. -/
def sha256hex (msg : Bytes) : Bytes :=
  bytesToHex (sha256bytes msg)

/-- `bytes.fromhex` on a string of hex digit pairs, either case; the
whitespace tolerance of CPython is not modelled (no claim exercises
it). -/
def fromHexPairs : Bytes → Option Bytes
  | [] => some []
  | [_] => none
  | a :: b :: r =>
    match hexVal a, hexVal b with
    | some va, some vb => (fromHexPairs r).map fun t => (16 * va + vb) :: t
    | _, _ => none

/-- ASCII `str.lower()`; the fields it is applied to are hex strings,
so the non-ASCII mappings of Python are irrelevant here. -/
def lowerPy (s : Bytes) : Bytes :=
  s.map fun c => if 65 ≤ c ∧ c ≤ 90 then c + 32 else c

/-- Inner loop of `_xor_encrypt`: byte `i` is XORed with
`key[i % len(key)]`. -/
def xorLoop (key : Bytes) : Nat → Bytes → Bytes
  | _, [] => []
  | i, b :: r => (b ^^^ key.getD (i % key.length) 0) :: xorLoop key (i + 1) r

/-- `_xor_encrypt(data)`: identity without a key, repeating-key XOR
otherwise. -/
def xor_encrypt (key data : Bytes) : Bytes :=
  if key = [] then data else xorLoop key 0 data

/-- `make_hmac(data)`: empty without a key, otherwise the hexdigest of
`SHA-256(key || data)`. -/
def make_hmac (key data : Bytes) : Bytes :=
  if key = [] then [] else sha256hex (key ++ data)

/-- Key `"enc"` of the encrypted wrapper. -/
def encK : Bytes := [101, 110, 99]

/-- Key `"payload"`. -/
def payloadK : Bytes := [112, 97, 121, 108, 111, 97, 100]

/-- Key `"hmac"`. -/
def hmacK : Bytes := [104, 109, 97, 99]

/-- The wrapper object `{"enc": 1, "payload": p, "hmac": h}`. -/
def wrapEnv (p h : Bytes) : Json :=
  .obj (.cons encK (.num 1) (.cons payloadK (.str p) (.cons hmacK (.str h) .nil)))

/-- `pack_payload(obj)`: plain `json.dumps` bytes without a key;
otherwise XOR-encrypt the serialized object and wrap it with the hex
ciphertext and the lowercased tag. -/
def pack_payload (key : Bytes) (obj : Json) : Bytes :=
  let raw := dumps obj
  if key = [] then raw
  else
    let enc := xor_encrypt key raw
    dumps (wrapEnv (bytesToHex enc) (lowerPy (make_hmac key enc)))

/-- Failure modes of `unpack_payload` (each is a raised exception in the
source). -/
inductive PyErr where
  | invalidEncoding
  | notJson
  | noSharedKey
  | attrError
  | badHexPayload
  | hmacMismatch
  | innerEncoding
  | innerNotJson
  deriving DecidableEq

/-- Python `obj.get("enc") == 1` on the decoded value: `1` compares
equal to the integer `1` and to `True`. -/
def pyEqOne : Option Json → Bool
  | some (.num 1) => true
  | some (.bool true) => true
  | _ => false

/-- `unpack_payload(raw)`: UTF-8 decode, JSON parse, then either pass a
plain value through or check and unwrap an `enc = 1` envelope. -/
def unpack_payload (key : Bytes) (raw : Bytes) : Except PyErr Json :=
  match decodeUtf8 raw with
  | none => .error .invalidEncoding
  | some data =>
    match parseJson data with
    | none => .error .notJson
    | some obj =>
      match obj with
      | .obj ms =>
        if pyEqOne (ms.get encK) then
          if key = [] then .error .noSharedKey
          else
            match (ms.get hmacK).getD (Json.str []) with
            | .str hs =>
              match (ms.get payloadK).getD (Json.str []) with
              | .str ps =>
                match fromHexPairs ps with
                | none => .error .badHexPayload
                | some enc =>
                  if lowerPy (make_hmac key enc) ≠ lowerPy hs then .error .hmacMismatch
                  else
                    match decodeUtf8 (xor_encrypt key enc) with
                    | none => .error .innerEncoding
                    | some dcps =>
                      match parseJson dcps with
                      | none => .error .innerNotJson
                      | some inner => .ok inner
              | _ => .error .badHexPayload
            | _ => .error .attrError
        else .ok obj
      | _ => .ok obj

instance : DecidableEq (Except PyErr Json) := fun a b =>
  match a, b with
  | .ok x, .ok y => if h : x = y then isTrue (by rw [h]) else isFalse (by simp [h])
  | .error x, .error y => if h : x = y then isTrue (by rw [h]) else isFalse (by simp [h])
  | .ok _, .error _ => isFalse (by simp)
  | .error _, .ok _ => isFalse (by simp)

/-! ### History store

`history` maps a peer address to its ordered entry list; a missing peer
reads as the empty list, matching `history.setdefault(peer, [])`.
Entries carry the four fields the source writes.  The wall-clock string
`now()` is a parameter of each mutation. -/

/-- One history record `{"time": .., "dir": .., "msg": .., "type": ..}`. -/
structure Entry where
  time : Bytes
  dir : Bytes
  msg : Json
  type : Bytes
  deriving DecidableEq

/-- The history store. -/
abbrev History := Bytes → List Entry

/-- The string `"ping"`. -/
def pingS : Bytes := [112, 105, 110, 103]

/-- The string `"msg"`. -/
def msgS : Bytes := [109, 115, 103]

/-- The string `"in"`. -/
def inS : Bytes := [105, 110]

/-- The string `"out"`. -/
def outS : Bytes := [111, 117, 116]

/-- `MAX_PING_RECORDS_PER_PEER`. -/
def MAX_PING_RECORDS_PER_PEER : Nat := 300

/-- `entry.get("type") == "ping"`. -/
def isPingE (e : Entry) : Bool :=
  e.type = pingS

/-- The pruning loop of `record_history`: walk the list, dropping ping
entries while the removal budget lasts, keeping everything else. -/
def removeOldestPings : Nat → List Entry → List Entry
  | 0, l => l
  | _ + 1, [] => []
  | k + 1, e :: rest =>
    if isPingE e then removeOldestPings k rest else e :: removeOldestPings (k + 1) rest

/-- `record_history` on one peer's list: append the new entry and, for a
ping, drop the oldest pings beyond the cap. -/
def record_history_list (nowS dir : Bytes) (content : Json) (etype : Bytes)
    (lst : List Entry) : List Entry :=
  let lst2 := lst ++ [Entry.mk nowS dir content etype]
  if etype = pingS then
    let pcount := (lst2.filter isPingE).length
    if pcount > MAX_PING_RECORDS_PER_PEER then
      removeOldestPings (pcount - MAX_PING_RECORDS_PER_PEER) lst2
    else lst2
  else lst2

/-- `record_history(peer, direction, content, entry_type)` on the store. -/
def record_history (nowS : Bytes) (hist : History) (peer dir : Bytes) (content : Json)
    (etype : Bytes) : History :=
  fun p => if p = peer then record_history_list nowS dir content etype (hist p) else hist p

/-- The arguments of one `record_history` call. -/
structure HOp where
  now : Bytes
  peer : Bytes
  dir : Bytes
  content : Json
  etype : Bytes

/-- A sequence of `record_history` calls applied in order. -/
def applyOps : List HOp → History → History
  | [], hist => hist
  | op :: rest, hist =>
    applyOps rest (record_history op.now hist op.peer op.dir op.content op.etype)

/-- Python `lst[-n:]` (for `n = 0` the whole list). -/
def pySliceLast (n : Nat) (lst : List Entry) : List Entry :=
  if n = 0 then lst else lst.drop (lst.length - n)

/-- `keep_last_n(n)`: per peer, replace the list by its last `n` entries
when it is longer than `n`. -/
def keep_last_n (n : Nat) (hist : History) : History :=
  fun p => if (hist p).length > n then pySliceLast n (hist p) else hist p

/-- The filtering loop of `keep_last_days`: drop entries whose time
string fails to parse and entries older than the cutoff. -/
def keepDaysLoop (parseT : Bytes → Option Int) (cutoff : Int) : List Entry → List Entry
  | [] => []
  | e :: rest =>
    match parseT e.time with
    | none => keepDaysLoop parseT cutoff rest
    | some t =>
      if cutoff ≤ t then e :: keepDaysLoop parseT cutoff rest
      else keepDaysLoop parseT cutoff rest

/-- `keep_last_days(days)` on the store; `parseT` abstracts
`datetime.strptime(_, "%Y-%m-%d %H:%M:%S")` as seconds, and `cutoff`
abstracts `datetime.now() - timedelta(days=days)`. -/
def keep_last_days (parseT : Bytes → Option Int) (cutoff : Int) (hist : History) : History :=
  fun p => keepDaysLoop parseT cutoff (hist p)

/-! ### Peer registry and the connection handler

`handle_conn` is embedded as a pure transition: given the configured
key, the wall-clock string, the source address `(ip, srcPort)`, the
current peers/history state and the received bytes, it returns the new
state together with the reply payloads sent on the connection and the
`display_incoming` calls scheduled on the UI thread. -/

/-- One record of the peers table.  `port` holds whatever Python value
the source stores there (an integer, or the raw `from_port` field when
`int()` fails), hence `Json`. -/
structure PeerRec where
  port : Option Json := none
  online : Option Bool := none
  name : Option Json := none
  last_seen : Option Bytes := none
  deriving DecidableEq, Inhabited

/-- The peers table; `none` is an address with no entry. -/
abbrev Peers := Bytes → Option PeerRec

/-- Registry plus history state of the application. -/
structure HState where
  peers : Peers
  history : History

/-- Observable effects of handling one connection. -/
structure Eff where
  sent : List Bytes
  displayed : List (Bytes × Json)
  deriving DecidableEq

/-- Python truthiness of a decoded JSON value. -/
def pyTruthy : Json → Bool
  | .null => false
  | .bool b => b
  | .num n => decide (n ≠ 0)
  | .str s => decide (s ≠ [])
  | .arr .nil => false
  | .arr _ => true
  | .obj .nil => false
  | .obj _ => true

/-- Truthiness of an optional value (`None` is falsy). -/
def optTruthy : Option Json → Bool
  | none => false
  | some v => pyTruthy v

/-- Digits-only decimal parse used by the `int()` model. -/
def decDigits (s : Bytes) : Option Nat :=
  if s ≠ [] ∧ s.all isDigit then some (decVal s) else none

/-- Python `int(value)` on a decoded JSON value: integers pass, booleans
coerce, strings parse as optionally signed decimals (CPython's
whitespace and underscore tolerance is not modelled), everything else
raises. -/
def pyIntMaybe : Json → Option Int
  | .num n => some n
  | .bool b => some (if b then 1 else 0)
  | .str s =>
    (match s with
     | 45 :: r => (decDigits r).map fun n => -(n : Int)
     | 43 :: r => (decDigits r).map fun n => (n : Int)
     | _ => (decDigits s).map fun n => (n : Int))
  | _ => none

/-- Key `"ping"`. -/
def pingK : Bytes := [112, 105, 110, 103]

/-- Key `"pong"`. -/
def pongK : Bytes := [112, 111, 110, 103]

/-- Key `"msg"`. -/
def msgK : Bytes := [109, 115, 103]

/-- Key `"from_port"`. -/
def fromPortK : Bytes := [102, 114, 111, 109, 95, 112, 111, 114, 116]

/-- Key `"name"`. -/
def nameK : Bytes := [110, 97, 109, 101]

/-- Key `"rtt_ms"`. -/
def rttK : Bytes := [114, 116, 116, 95, 109, 115]

/-- The reserved probe marker `"__TEST_REPLY__"`. -/
def markerS : Bytes := [95, 95, 84, 69, 83, 84, 95, 82, 69, 80, 76, 89, 95, 95]

/-- The pong reply `{"pong": 1, "rtt_ms": 0}`. -/
def pongObj : Json :=
  .obj (.cons pongK (.num 1) (.cons rttK (.num 0) .nil))

/-- `sender_port` of the chat branch: absent field gives `None`,
otherwise `int(value)` and, when that raises, the raw value. -/
def senderPortVal (ms : JObj) : Option Json :=
  match ms.get fromPortK with
  | none => none
  | some v =>
    match pyIntMaybe v with
    | some n => some (.num n)
    | none => some v

/-- `peers.setdefault(ip, \x7b\x7d)` read side. -/
def getPeer (ps : Peers) (ip : Bytes) : PeerRec :=
  (ps ip).getD {}

/-- Store an updated record. -/
def setPeer (ps : Peers) (ip : Bytes) (r : PeerRec) : Peers :=
  fun q => if q = ip then some r else ps q

/-- `"port" not in p or not p.get("port")`. -/
def portUnset (r : PeerRec) : Bool :=
  match r.port with
  | none => true
  | some v => !pyTruthy v

/-- Shared update pattern of the ping/pong branches: set the port when
unset, mark online, stamp `last_seen`. -/
def touchPeer (nowS : Bytes) (srcPort : Nat) (r : PeerRec) : PeerRec :=
  let r := if portUnset r then { r with port := some (.num (srcPort : Int)) } else r
  { r with online := some true, last_seen := some nowS }

/-- The name-saving block that runs before classification: when the
decoded object is a dict with a truthy `name`, store the name, mark
online, stamp `last_seen`, and set the port from the source address when
unset. -/
def storeNameStep (nowS : Bytes) (ip : Bytes) (srcPort : Nat) (obj : Json) (ps : Peers) :
    Peers :=
  match obj with
  | .obj ms =>
    match ms.get nameK with
    | some nv =>
      if pyTruthy nv then
        let p := getPeer ps ip
        let p := if portUnset p then { p with port := some (.num (srcPort : Int)) } else p
        let p := { p with name := some nv, online := some true, last_seen := some nowS }
        setPeer ps ip p
      else ps
    | none => ps
  | _ => ps

/-- Peer update of the chat branch: only when `sender_port` is truthy,
set the port when unset and mark online (no `last_seen` stamp here). -/
def chatPeerStep (ip : Bytes) (sp : Option Json) (ps : Peers) : Peers :=
  match sp with
  | some v =>
    if pyTruthy v then
      let p := getPeer ps ip
      let p := if portUnset p then { p with port := some v } else p
      let p := { p with online := some true }
      setPeer ps ip p
    else ps
  | none => ps

/-- Classification and handling of a decoded envelope (the body of
`handle_conn` after `unpack_payload` succeeds). -/
def handleDecoded (key nowS ip : Bytes) (srcPort : Nat) (st : HState) (obj : Json) :
    HState × Eff :=
  let ps1 := storeNameStep nowS ip srcPort obj st.peers
  match obj with
  | .obj ms =>
    if ms.hasKey pingK then
      (⟨setPeer ps1 ip (touchPeer nowS srcPort (getPeer ps1 ip)), st.history⟩,
       ⟨[pack_payload key pongObj], []⟩)
    else if ms.hasKey pongK then
      (⟨setPeer ps1 ip (touchPeer nowS srcPort (getPeer ps1 ip)), st.history⟩, ⟨[], []⟩)
    else if ms.hasKey msgK then
      match ms.get msgK with
      | some m =>
        let sp := senderPortVal ms
        if m = .str markerS then
          (⟨chatPeerStep ip sp ps1, st.history⟩, ⟨[], []⟩)
        else
          (⟨chatPeerStep ip sp ps1, record_history nowS st.history ip inS m msgS⟩,
           ⟨[], [(ip, m)]⟩)
      | none => (⟨ps1, st.history⟩, ⟨[], []⟩)
    else (⟨ps1, st.history⟩, ⟨[], []⟩)
  | _ => (⟨ps1, st.history⟩, ⟨[], []⟩)

/-- `handle_conn`: decode one received buffer and dispatch; any decode
failure only logs and closes. -/
def handle_conn (key nowS ip : Bytes) (srcPort : Nat) (st : HState) (raw : Bytes) :
    HState × Eff :=
  match unpack_payload key raw with
  | .error _ => (st, ⟨[], []⟩)
  | .ok obj => handleDecoded key nowS ip srcPort st obj

/-! ### Liveness scan (`check_peers_online`)

One pass of the probe loop: which registered peers get pinged.  The
`datetime.strptime` parser is abstracted as `parseT` (seconds), and the
`.seconds` field of the elapsed `timedelta` is the component in
`[0, 86400)` after floor-division normalization. -/

/-- Seconds component of a `timedelta` of `total` seconds. -/
def tdSeconds (total : Int) : Int :=
  total % 86400

/-- One iteration of the scan body: `False` mirrors a `continue`.  The
peer is skipped when its `last_seen` parses and the elapsed seconds
component exceeds 60, or when its port is missing or falsy. -/
def check_peers_step (parseT : Bytes → Option Int) (nowT : Int) (r : PeerRec) : Bool :=
  (match r.last_seen with
   | some s =>
     match parseT s with
     | some t => !decide (tdSeconds (nowT - t) > 60)
     | none => true
   | none => true) &&
  (match r.port with
   | some v => pyTruthy v
   | none => false)

/-- Addresses probed in one scan over the peers table, in table order. -/
def check_peers_probes (parseT : Bytes → Option Int) (nowT : Int) :
    List (Bytes × PeerRec) → List Bytes
  | [] => []
  | (ip, r) :: rest =>
    if check_peers_step parseT nowT r then ip :: check_peers_probes parseT nowT rest
    else check_peers_probes parseT nowT rest

/-! ### Specification-side auxiliaries -/

/-- A continuation on which a number token stops: end of input, or a
character that is neither a digit nor a fraction/exponent mark.  Every
separator `json.dumps` emits after a number satisfies this. -/
def numDelim : Bytes → Bool
  | [] => true
  | c :: _ => !isDigit c && !decide (c = 46) && !decide (c = 101) && !decide (c = 69)

mutual

/-- Fuel sufficient for `pVal` to parse this value. -/
def needJ : Json → Nat
  | .null => 1
  | .bool _ => 1
  | .num _ => 1
  | .str _ => 1
  | .arr .nil => 1
  | .arr (.cons x xs) => 1 + needA (.cons x xs)
  | .obj .nil => 1
  | .obj (.cons k v ms) => 1 + needM (.cons k v ms)

/-- Fuel sufficient for `pElems` on the serialized tail. -/
def needA : JArr → Nat
  | .nil => 0
  | .cons x xs => 1 + needJ x + needA xs

/-- Fuel sufficient for `pMems` on the serialized tail. -/
def needM : JObj → Nat
  | .nil => 0
  | .cons _ v ms => 1 + needJ v + needM ms

end

/-- Number of ping entries in a history list. -/
def countPing (l : List Entry) : Nat :=
  (l.filter isPingE).length

/-- Replace one byte of a wire message by its XOR with `mask` (a
single-bit mask models flipping that bit in transit). -/
def flipBitAt (mask : Nat) : Nat → Bytes → Bytes
  | _, [] => []
  | 0, b :: r => (b ^^^ mask) :: r
  | i + 1, b :: r => b :: flipBitAt mask i r

/-- Characters that `json.dumps` copies into a string literal verbatim:
printable ASCII other than quote and backslash.  Hex digits are such
characters, and so is every single-bit variation of one that stays in
this range. -/
def jsonSafe (s : Bytes) : Bool :=
  s.all fun c => 32 ≤ c && c ≤ 126 && !decide (c = 34) && !decide (c = 92)

/-- The ping envelope `{"ping": 1}`. -/
def pingMsg : Json :=
  .obj (.cons pingK (.num 1) .nil)

/-- Serialized wrapper text before the payload value:
`\x7b"enc": 1, "payload": "`. -/
def wrapPrefix : Bytes :=
  [123, 34, 101, 110, 99, 34, 58, 32, 49, 44, 32, 34, 112, 97, 121, 108, 111, 97, 100,
   34, 58, 32, 34]

/-- Serialized wrapper text between payload and tag: `", "hmac": "`. -/
def wrapMid : Bytes :=
  [34, 44, 32, 34, 104, 109, 97, 99, 34, 58, 32, 34]

/-- Serialized wrapper text after the tag: `"\x7d`. -/
def wrapSuffix : Bytes :=
  [34, 125]

/-! ## Theorems

### Decimal rendering parses back -/

theorem natToDec_small {n : Nat} (h : n < 10) : natToDec n = [48 + n] := by
  rw [natToDec]; simp [h]

theorem natToDec_large {n : Nat} (h : ¬n < 10) :
    natToDec n = natToDec (n / 10) ++ [48 + n % 10] := by
  rw [natToDec]; simp [h]

theorem natToDec_ne_nil (n : Nat) : natToDec n ≠ [] := by
  by_cases h : n < 10
  · simp [natToDec_small h]
  · simp [natToDec_large h]

theorem natToDec_digits (n : Nat) : ∀ c ∈ natToDec n, isDigit c = true := by
  induction n using Nat.strong_induction_on with
  | _ n ih =>
    intro c hc
    by_cases h : n < 10
    · rw [natToDec_small h] at hc
      simp at hc
      subst hc
      simp [isDigit]
      omega
    · rw [natToDec_large h] at hc
      rcases List.mem_append.mp hc with h1 | h2
      · exact ih (n / 10) (Nat.div_lt_self (by omega) (by omega)) c h1
      · simp at h2
        subst h2
        simp [isDigit]
        omega

theorem decVal_append (l : Bytes) (d : Nat) :
    decVal (l ++ [d]) = 10 * decVal l + (d - 48) := by
  simp [decVal, List.foldl_append]

theorem decVal_natToDec (n : Nat) : decVal (natToDec n) = n := by
  induction n using Nat.strong_induction_on with
  | _ n ih =>
    by_cases h : n < 10
    · rw [natToDec_small h]
      simp [decVal]
    · rw [natToDec_large h, decVal_append, ih (n / 10) (Nat.div_lt_self (by omega) (by omega))]
      omega

theorem natToDec_head (n : Nat) : 1 ≤ n → ∀ d ds, natToDec n = d :: ds → d ≠ 48 := by
  induction n using Nat.strong_induction_on with
  | _ n ih =>
    intro hn d ds hd
    by_cases h : n < 10
    · rw [natToDec_small h] at hd
      injection hd with h1 _
      omega
    · rw [natToDec_large h] at hd
      rcases hq : natToDec (n / 10) with _ | ⟨d0, ds0⟩
      · exact absurd hq (natToDec_ne_nil _)
      · rw [hq] at hd
        rw [List.cons_append] at hd
        injection hd with h1 _
        subst h1
        exact ih (n / 10) (Nat.div_lt_self (by omega) (by omega)) (by omega) d0 ds0 hq

theorem takeWhile_append_stop {p : Nat → Bool} (l r : Bytes)
    (hl : ∀ c ∈ l, p c = true) (hr : ∀ c t, r = c :: t → p c = false) :
    (l ++ r).takeWhile p = l := by
  induction l with
  | nil =>
    cases hr2 : r with
    | nil => rfl
    | cons c t => simp [List.takeWhile_cons, hr c t hr2]
  | cons a l ih =>
    have ha : p a = true := hl a (by simp)
    simp only [List.cons_append, List.takeWhile_cons, ha, if_true]
    rw [ih (fun c hc => hl c (by simp [hc]))]

theorem numDelim_not_digit {rest : Bytes} (h : numDelim rest = true) :
    ∀ c t, rest = c :: t → isDigit c = false := by
  intro c t hct
  subst hct
  simp [numDelim] at h
  simp [h.1]

theorem numDelim_not_float {rest : Bytes} (h : numDelim rest = true) :
    floatish rest = false := by
  cases rest with
  | nil => rfl
  | cons c t =>
    simp [numDelim] at h
    simp [floatish]
    omega

theorem parseNatNum_natToDec (n : Nat) (rest : Bytes) (hrest : numDelim rest = true) :
    parseNatNum (natToDec n ++ rest) = some (n, rest) := by
  have htw : (natToDec n ++ rest).takeWhile isDigit = natToDec n :=
    takeWhile_append_stop _ _ (natToDec_digits n) (numDelim_not_digit hrest)
  have hdrop : (natToDec n ++ rest).drop (natToDec n).length = rest := List.drop_left _ _
  simp only [parseNatNum, htw, hdrop]
  rcases hq : natToDec n with _ | ⟨d, ds⟩
  · exact absurd hq (natToDec_ne_nil _)
  · have hlead : ¬(d = 48 ∧ ds ≠ []) := by
      by_cases h : n < 10
      · rw [natToDec_small h] at hq
        injection hq with h1 h2
        simp [h2.symm]
      · intro hcon
        exact natToDec_head n (by omega) d ds hq hcon.1
    have hflo := numDelim_not_float hrest
    have hdv : decVal (d :: ds) = n := by rw [← hq]; exact decVal_natToDec n
    simp [hlead, hflo, hdv]

theorem parseNum_intToDec (i : Int) (rest : Bytes) (hrest : numDelim rest = true) :
    parseNum (intToDec i ++ rest) = some (Json.num i, rest) := by
  by_cases hneg : i < 0
  · rw [intToDec, if_pos hneg, List.cons_append]
    have hcast : -(↑i.natAbs : Int) = i := by omega
    simp [parseNum, parseNatNum_natToDec _ _ hrest, hcast]
    rw [abs_of_neg hneg]
    ring
  · rw [intToDec, if_neg hneg]
    have hcast : (↑i.natAbs : Int) = i := by omega
    have hp := parseNatNum_natToDec i.natAbs rest hrest
    rcases hq : natToDec i.natAbs with _ | ⟨d, ds⟩
    · exact absurd hq (natToDec_ne_nil _)
    · rw [hq] at hp
      have hd : isDigit d = true := natToDec_digits _ d (by rw [hq]; simp)
      have h45 : ¬d = 45 := by simp [isDigit] at hd; omega
      rw [List.cons_append] at hp ⊢
      simp [parseNum, h45, hp, hcast]

/-! ### String escaping parses back -/

theorem hexVal_hexDig {d : Nat} (h : d < 16) : hexVal (hexDig d) = some d := by
  by_cases h10 : d < 10
  · simp only [hexDig, if_pos h10, hexVal]
    rw [if_pos (by omega)]
    simp only [Option.some.injEq]
    omega
  · simp only [hexDig, if_neg h10, hexVal]
    rw [if_neg (by omega), if_pos (by omega)]
    simp only [Option.some.injEq]
    omega

theorem hex4Val_toHex4 {n : Nat} (h : n < 65536) :
    hex4Val (hexDig (n / 4096 % 16)) (hexDig (n / 256 % 16)) (hexDig (n / 16 % 16))
      (hexDig (n % 16)) = some n := by
  rw [hex4Val]
  simp only [hexVal_hexDig (Nat.mod_lt _ (by omega)), Option.bind_eq_bind,
    Option.some_bind, Option.pure_def]
  simp only [Option.some.injEq]
  omega

set_option maxHeartbeats 1000000 in
theorem parseStrBody_other {c : Nat} (rest : Bytes) (h34 : c ≠ 34) (h92 : c ≠ 92)
    (hge : 32 ≤ c) :
    parseStrBody (c :: rest) = (parseStrBody rest).map fun p => (c :: p.1, p.2) := by
  rw [parseStrBody.eq_def]
  dsimp only
  rw [if_neg h34, if_neg h92, if_neg (by omega)]

theorem parseStrBody_quote (rest : Bytes) : parseStrBody (34 :: rest) = some ([], rest) := by
  rw [parseStrBody.eq_def]
  dsimp only
  rw [if_pos rfl]

theorem parseStrBody_backslash (e : Nat) (r2 : Bytes) :
    parseStrBody (92 :: e :: r2) =
      (if e = 34 then (parseStrBody r2).map fun p => (34 :: p.1, p.2)
       else if e = 92 then (parseStrBody r2).map fun p => (92 :: p.1, p.2)
       else if e = 47 then (parseStrBody r2).map fun p => (47 :: p.1, p.2)
       else if e = 98 then (parseStrBody r2).map fun p => (8 :: p.1, p.2)
       else if e = 102 then (parseStrBody r2).map fun p => (12 :: p.1, p.2)
       else if e = 110 then (parseStrBody r2).map fun p => (10 :: p.1, p.2)
       else if e = 114 then (parseStrBody r2).map fun p => (13 :: p.1, p.2)
       else if e = 116 then (parseStrBody r2).map fun p => (9 :: p.1, p.2)
       else if e = 117 then
         match uEscape r2 with
         | none => none
         | some (cp, n) => (parseStrBody (r2.drop n)).map fun p => (cp :: p.1, p.2)
       else none) := by
  rw [parseStrBody.eq_def]
  dsimp only
  rw [if_neg (by omega), if_pos rfl]

theorem uEscape_toHex4 {n : Nat} (hlt : n < 65536) (hsur : ¬(55296 ≤ n ∧ n ≤ 56319))
    (X : Bytes) : uEscape (toHex4 n ++ X) = some (n, 4) := by
  simp only [toHex4, List.cons_append, List.nil_append]
  rw [uEscape]
  rw [hex4Val_toHex4 hlt]
  dsimp only
  rw [if_neg hsur]

theorem uEscape_pair {c : Nat} (h1 : 65536 ≤ c) (h2 : c ≤ 1114111) (X : Bytes) :
    uEscape (toHex4 (55296 + (c - 65536) / 1024) ++
      (92 :: 117 :: (toHex4 (56320 + (c - 65536) % 1024) ++ X))) = some (c, 10) := by
  have hhi : 55296 + (c - 65536) / 1024 < 65536 := by omega
  have hlo : 56320 + (c - 65536) % 1024 < 65536 := by
    have := Nat.mod_lt (c - 65536) (show 0 < 1024 by omega)
    omega
  simp only [toHex4, List.cons_append, List.nil_append, List.append_assoc]
  rw [uEscape]
  rw [hex4Val_toHex4 hhi]
  dsimp only
  rw [if_pos (by omega : 55296 ≤ 55296 + (c - 65536) / 1024 ∧
    55296 + (c - 65536) / 1024 ≤ 56319)]
  rw [uEscapeTail]
  rw [if_pos ⟨rfl, rfl⟩]
  rw [hex4Val_toHex4 hlo]
  dsimp only
  rw [if_pos (by
    constructor
    · omega
    · have := Nat.mod_lt (c - 65536) (show 0 < 1024 by omega)
      omega)]
  simp only [Option.some.injEq, Prod.mk.injEq]
  constructor
  · have ha : 55296 + (c - 65536) / 1024 - 55296 = (c - 65536) / 1024 := by omega
    have hb : 56320 + (c - 65536) % 1024 - 56320 = (c - 65536) % 1024 := by omega
    rw [ha, hb]
    omega
  · trivial

theorem parseStrBody_escStr (s : Bytes) (rest : Bytes) (h : s.all scalar = true) :
    parseStrBody (escStr s ++ 34 :: rest) = some (s, rest) := by
  induction s with
  | nil =>
    rw [escStr, List.nil_append, parseStrBody_quote]
  | cons c cs ih =>
    have hpair : scalar c = true ∧ cs.all scalar = true := by
      simpa [List.all_cons, Bool.and_eq_true] using h
    obtain ⟨hc, hcs⟩ := hpair
    have ihc := ih hcs
    have hsc : c < 1114112 ∧ ¬(55296 ≤ c ∧ c ≤ 57343) := by
      simp [scalar] at hc
      omega
    rw [escStr, List.append_assoc]
    by_cases e34 : c = 34
    · subst e34
      rw [show escChar 34 = [92, 34] from rfl]
      simp only [List.cons_append, List.nil_append]
      rw [parseStrBody_backslash]
      simp [ihc]
    · by_cases e92 : c = 92
      · subst e92
        rw [show escChar 92 = [92, 92] from rfl]
        simp only [List.cons_append, List.nil_append]
        rw [parseStrBody_backslash]
        simp [ihc]
      · by_cases e8 : c = 8
        · subst e8
          rw [show escChar 8 = [92, 98] from rfl]
          simp only [List.cons_append, List.nil_append]
          rw [parseStrBody_backslash]
          simp [ihc]
        · by_cases e9 : c = 9
          · subst e9
            rw [show escChar 9 = [92, 116] from rfl]
            simp only [List.cons_append, List.nil_append]
            rw [parseStrBody_backslash]
            simp [ihc]
          · by_cases e10 : c = 10
            · subst e10
              rw [show escChar 10 = [92, 110] from rfl]
              simp only [List.cons_append, List.nil_append]
              rw [parseStrBody_backslash]
              simp [ihc]
            · by_cases e12 : c = 12
              · subst e12
                rw [show escChar 12 = [92, 102] from rfl]
                simp only [List.cons_append, List.nil_append]
                rw [parseStrBody_backslash]
                simp [ihc]
              · by_cases e13 : c = 13
                · subst e13
                  rw [show escChar 13 = [92, 114] from rfl]
                  simp only [List.cons_append, List.nil_append]
                  rw [parseStrBody_backslash]
                  simp [ihc]
                · by_cases eprint : 32 ≤ c ∧ c ≤ 126
                  · have : escChar c = [c] := by
                      simp only [escChar]
                      rw [if_neg e34, if_neg e92, if_neg e8, if_neg e9, if_neg e10,
                        if_neg e12, if_neg e13, if_pos eprint]
                    rw [this, List.cons_append, List.nil_append,
                      parseStrBody_other _ e34 e92 eprint.1, ihc]
                    rfl
                  · by_cases ebmp : c < 65536
                    · have : escChar c = 92 :: 117 :: toHex4 c := by
                        simp only [escChar]
                        rw [if_neg e34, if_neg e92, if_neg e8, if_neg e9, if_neg e10,
                          if_neg e12, if_neg e13, if_neg eprint, if_pos ebmp]
                      rw [this, List.cons_append, List.cons_append, parseStrBody_backslash]
                      rw [if_neg (by decide), if_neg (by decide), if_neg (by decide),
                        if_neg (by decide), if_neg (by decide), if_neg (by decide),
                        if_neg (by decide), if_neg (by decide), if_pos rfl]
                      rw [uEscape_toHex4 ebmp (by omega)]
                      dsimp only
                      have hdrop : (toHex4 c ++ (escStr cs ++ 34 :: rest)).drop 4 =
                          escStr cs ++ 34 :: rest := by
                        rw [show (4 : Nat) = (toHex4 c).length by simp [toHex4]]
                        exact List.drop_left _ _
                      rw [hdrop, ihc]
                      rfl
                    · have : escChar c = 92 :: 117 :: toHex4 (55296 + (c - 65536) / 1024) ++
                          (92 :: 117 :: toHex4 (56320 + (c - 65536) % 1024)) := by
                        simp only [escChar]
                        rw [if_neg e34, if_neg e92, if_neg e8, if_neg e9, if_neg e10,
                          if_neg e12, if_neg e13, if_neg eprint, if_neg ebmp]
                      rw [this]
                      simp only [List.cons_append, List.append_assoc]
                      rw [parseStrBody_backslash]
                      rw [if_neg (by decide), if_neg (by decide), if_neg (by decide),
                        if_neg (by decide), if_neg (by decide), if_neg (by decide),
                        if_neg (by decide), if_neg (by decide), if_pos rfl]
                      rw [uEscape_pair (by omega) (by omega)]
                      dsimp only
                      have hdrop : List.drop 10 (toHex4 (55296 + (c - 65536) / 1024) ++
                          92 :: 117 :: (toHex4 (56320 + (c - 65536) % 1024) ++
                            (escStr cs ++ 34 :: rest))) = escStr cs ++ 34 :: rest := by
                        simp [toHex4]
                      rw [hdrop, ihc]
                      rfl

/-! ### Heads of serialized values, whitespace, and fuel bounds -/

theorem skipWs_not_ws {c : Nat} (t : Bytes) (h : isWs c = false) : skipWs (c :: t) = c :: t := by
  simp [skipWs, List.dropWhile_cons, h]

theorem skipWs_space (t : Bytes) : skipWs (32 :: t) = skipWs t := by
  simp [skipWs, List.dropWhile_cons, isWs]

theorem intToDec_head (i : Int) :
    ∃ c t, intToDec i = c :: t ∧ (c = 45 ∨ isDigit c = true) := by
  rw [intToDec]
  by_cases hneg : i < 0
  · exact ⟨45, natToDec i.natAbs, by rw [if_pos hneg], Or.inl rfl⟩
  · rw [if_neg hneg]
    rcases hq : natToDec i.natAbs with _ | ⟨c, t⟩
    · exact absurd hq (natToDec_ne_nil _)
    · exact ⟨c, t, rfl, Or.inr (natToDec_digits _ c (by rw [hq]; simp))⟩

theorem dumps_head (j : Json) :
    ∃ c t, dumps j = c :: t ∧ isWs c = false ∧ c ≠ 93 ∧ c ≠ 125 ∧ c ≠ 44 := by
  cases j with
  | null => exact ⟨110, _, rfl, by decide, by decide, by decide, by decide⟩
  | bool b =>
    cases b with
    | true => exact ⟨116, _, rfl, by decide, by decide, by decide, by decide⟩
    | false => exact ⟨102, _, rfl, by decide, by decide, by decide, by decide⟩
  | num i =>
    obtain ⟨c, t, hct, hc⟩ := intToDec_head i
    refine ⟨c, t, hct, ?_, ?_, ?_, ?_⟩
    all_goals
      rcases hc with h | h
      · subst h; decide
      · simp [isDigit] at h; simp [isWs]; omega
  | str s => exact ⟨34, _, rfl, by decide, by decide, by decide, by decide⟩
  | arr l =>
    cases l with
    | nil => exact ⟨91, _, rfl, by decide, by decide, by decide, by decide⟩
    | cons x xs => exact ⟨91, _, rfl, by decide, by decide, by decide, by decide⟩
  | obj ms =>
    cases ms with
    | nil => exact ⟨123, _, rfl, by decide, by decide, by decide, by decide⟩
    | cons k v tl => exact ⟨123, _, rfl, by decide, by decide, by decide, by decide⟩

theorem skipWs_dumps_append (j : Json) (rest : Bytes) :
    skipWs (dumps j ++ rest) = dumps j ++ rest := by
  obtain ⟨c, t, hct, hws, -⟩ := dumps_head j
  rw [hct, List.cons_append, skipWs_not_ws _ hws]

theorem needJ_pos (j : Json) : 1 ≤ needJ j := by
  cases j with
  | null => simp [needJ]
  | bool b => simp [needJ]
  | num i => simp [needJ]
  | str s => simp [needJ]
  | arr l => cases l <;> simp [needJ]
  | obj ms => cases ms <;> simp [needJ]

mutual

theorem needJ_le : ∀ j : Json, needJ j ≤ (dumps j).length + 1
  | .null => by simp [needJ, dumps]
  | .bool true => by simp [needJ, dumps]
  | .bool false => by simp [needJ, dumps]
  | .num i => by simp [needJ, dumps]
  | .str s => by simp [needJ, dumps]
  | .arr .nil => by simp [needJ, dumps]
  | .arr (.cons x xs) => by
    have h1 := needJ_le x
    have h2 := needA_le xs
    simp only [needJ, needA, dumps, List.length_cons, List.length_append]
    omega
  | .obj .nil => by simp [needJ, dumps]
  | .obj (.cons k v ms) => by
    have h1 := needJ_le v
    have h2 := needM_le ms
    simp only [needJ, needM, dumps, List.length_cons, List.length_append]
    omega

theorem needA_le : ∀ l : JArr, needA l ≤ (dumpsArrTail l).length
  | .nil => by simp [needA, dumpsArrTail]
  | .cons x xs => by
    have h1 := needJ_le x
    have h2 := needA_le xs
    simp only [needA, dumpsArrTail, List.length_cons, List.length_append]
    omega

theorem needM_le : ∀ ms : JObj, needM ms ≤ (dumpsObjTail ms).length
  | .nil => by simp [needM, dumpsObjTail]
  | .cons k v ms => by
    have h1 := needJ_le v
    have h2 := needM_le ms
    simp only [needM, dumpsObjTail, List.length_cons, List.length_append]
    omega

end

theorem mergeFront_not_mem {k : Bytes} (v : Json) {ms : JObj} (h : ms.get k = none) :
    JObj.mergeFront k v ms = JObj.cons k v ms := by
  rw [JObj.mergeFront, h]

/-! ### The parser inverts the serializer -/

mutual

theorem pVal_dumps : ∀ (j : Json) (f : Nat) (s rest : Bytes),
    j.wf = true → needJ j ≤ f → skipWs s = dumps j ++ rest → numDelim rest = true →
    pVal f s = some (j, rest)
  | j, f, s, rest => fun hwf hf hs hrest => by
    obtain ⟨g, rfl⟩ : ∃ g, f = g + 1 := ⟨f - 1, by have := needJ_pos j; omega⟩
    rw [pVal, hs]
    cases j with
    | null =>
      rw [show dumps Json.null = 110 :: [117, 108, 108] from rfl, List.cons_append]
      dsimp only
      rw [if_neg (by decide), if_neg (by decide), if_neg (by decide), if_pos rfl]
      simp [dropLit]
    | bool b =>
      cases b with
      | true =>
        rw [show dumps (Json.bool true) = 116 :: [114, 117, 101] from rfl, List.cons_append]
        dsimp only
        rw [if_neg (by decide), if_neg (by decide), if_neg (by decide), if_neg (by decide),
          if_pos rfl]
        simp [dropLit]
      | false =>
        rw [show dumps (Json.bool false) = 102 :: [97, 108, 115, 101] from rfl,
          List.cons_append]
        dsimp only
        rw [if_neg (by decide), if_neg (by decide), if_neg (by decide), if_neg (by decide),
          if_neg (by decide), if_pos rfl]
        simp [dropLit]
    | num i =>
      obtain ⟨c0, t0, hq, hc0⟩ := intToDec_head i
      have hne : c0 ≠ 123 ∧ c0 ≠ 91 ∧ c0 ≠ 34 ∧ c0 ≠ 110 ∧ c0 ≠ 116 ∧ c0 ≠ 102 := by
        rcases hc0 with h | h
        · subst h; exact ⟨by decide, by decide, by decide, by decide, by decide, by decide⟩
        · simp [isDigit] at h
          refine ⟨by omega, by omega, by omega, by omega, by omega, by omega⟩
      rw [show dumps (Json.num i) = intToDec i from rfl, hq, List.cons_append]
      dsimp only
      rw [if_neg hne.1, if_neg hne.2.1, if_neg hne.2.2.1, if_neg hne.2.2.2.1,
        if_neg hne.2.2.2.2.1, if_neg hne.2.2.2.2.2]
      have heq : c0 :: (t0 ++ rest) = intToDec i ++ rest := by rw [hq, List.cons_append]
      rw [heq, parseNum_intToDec i rest hrest]
    | str s0 =>
      rw [show dumps (Json.str s0) = 34 :: (escStr s0 ++ [34]) from rfl, List.cons_append]
      dsimp only
      rw [if_neg (by decide), if_neg (by decide), if_pos rfl]
      rw [List.append_assoc, show ([34] : Bytes) ++ rest = 34 :: rest from rfl]
      rw [parseStrBody_escStr s0 rest (by simpa [Json.wf] using hwf)]
      rfl
    | arr l =>
      cases l with
      | nil =>
        rw [show dumps (Json.arr .nil) = 91 :: [93] from rfl, List.cons_append]
        dsimp only
        rw [if_neg (by decide), if_pos rfl]
        rw [show ([93] : Bytes) ++ rest = 93 :: rest from rfl,
          skipWs_not_ws _ (by decide)]
        simp
      | cons x xs =>
        rw [show dumps (Json.arr (.cons x xs)) =
          91 :: (dumps x ++ dumpsArrTail xs ++ [93]) from rfl, List.cons_append]
        dsimp only
        rw [if_neg (by decide), if_pos rfl]
        have hsh : dumps x ++ dumpsArrTail xs ++ [93] ++ rest =
            dumps x ++ (dumpsArrTail xs ++ 93 :: rest) := by
          simp [List.append_assoc]
        rw [hsh, skipWs_dumps_append x (dumpsArrTail xs ++ 93 :: rest)]
        obtain ⟨c, t, hct, -, h93, -, -⟩ := dumps_head x
        rw [hct, List.cons_append]
        rw [if_neg (by simp [h93])]
        rw [← List.cons_append, ← hct]
        rw [pElems_dumps x xs g (dumps x ++ (dumpsArrTail xs ++ 93 :: rest)) rest
          (by simpa [Json.wf] using hwf)
          (by simp only [needJ, needA] at hf ⊢; omega)
          (skipWs_dumps_append x _) hrest]
        rfl
    | obj ms =>
      cases ms with
      | nil =>
        rw [show dumps (Json.obj .nil) = 123 :: [125] from rfl, List.cons_append]
        dsimp only
        rw [if_pos rfl]
        rw [show ([125] : Bytes) ++ rest = 125 :: rest from rfl,
          skipWs_not_ws _ (by decide)]
        simp
      | cons k v tl =>
        rw [show dumps (Json.obj (.cons k v tl)) =
          123 :: ((34 :: escStr k ++ [34, 58, 32]) ++ dumps v ++ dumpsObjTail tl ++ [125])
          from rfl, List.cons_append]
        dsimp only
        rw [if_pos rfl]
        have hsh : (34 :: escStr k ++ [34, 58, 32]) ++ dumps v ++ dumpsObjTail tl ++ [125]
            ++ rest =
            34 :: (escStr k ++ (34 :: 58 :: 32 :: (dumps v ++ (dumpsObjTail tl ++
              125 :: rest)))) := by
          simp [List.append_assoc]
        rw [hsh, skipWs_not_ws _ (by decide)]
        rw [show (34 :: (escStr k ++ (34 :: 58 :: 32 :: (dumps v ++ (dumpsObjTail tl ++
          125 :: rest))))).head? = some 34 from rfl]
        rw [if_neg (by decide)]
        rw [pMems_dumps k v tl g _ rest hwf
          (by simp only [needJ, needM] at hf ⊢; omega)
          (by rw [skipWs_not_ws _ (by decide)]) hrest]
        rfl
termination_by j _ _ _ => sizeOf j

theorem pElems_dumps : ∀ (x : Json) (xs : JArr) (f : Nat) (s rest : Bytes),
    (JArr.cons x xs).wfA = true → needA (JArr.cons x xs) ≤ f →
    skipWs s = dumps x ++ (dumpsArrTail xs ++ 93 :: rest) → numDelim rest = true →
    pElems f s = some (JArr.cons x xs, rest)
  | x, xs, f, s, rest => fun hwf hf hs hrest => by
    obtain ⟨g, rfl⟩ : ∃ g, f = g + 1 := ⟨f - 1, by simp only [needA] at hf; omega⟩
    have hwx : x.wf = true ∧ xs.wfA = true := by
      simpa [JArr.wfA, Bool.and_eq_true] using hwf
    have hdelim : numDelim (dumpsArrTail xs ++ 93 :: rest) = true := by
      cases xs with
      | nil => rw [show dumpsArrTail .nil = [] from rfl, List.nil_append]; rfl
      | cons y ys =>
        rw [show dumpsArrTail (.cons y ys) = 44 :: 32 :: (dumps y ++ dumpsArrTail ys)
          from rfl, List.cons_append]
        rfl
    rw [pElems]
    rw [pVal_dumps x g s (dumpsArrTail xs ++ 93 :: rest) hwx.1
      (by simp only [needA] at hf; omega) hs hdelim]
    dsimp only
    cases xs with
    | nil =>
      rw [show dumpsArrTail .nil = [] from rfl, List.nil_append,
        skipWs_not_ws _ (by decide)]
      rw [show (93 :: rest).head? = some 93 from rfl]
      rw [if_neg (by decide), if_pos rfl]
      rfl
    | cons y ys =>
      rw [show dumpsArrTail (.cons y ys) = 44 :: 32 :: (dumps y ++ dumpsArrTail ys)
        from rfl]
      rw [List.cons_append, List.cons_append, skipWs_not_ws _ (by decide)]
      rw [show ((44 : Nat) :: (32 :: ((dumps y ++ dumpsArrTail ys) ++ 93 :: rest))).head? =
        some 44 from rfl]
      rw [if_pos rfl]
      have htl : ((44 : Nat) :: (32 :: ((dumps y ++ dumpsArrTail ys) ++ 93 :: rest))).tail =
          32 :: ((dumps y ++ dumpsArrTail ys) ++ 93 :: rest) := rfl
      rw [htl]
      have hwy : (JArr.cons y ys).wfA = true := hwx.2
      rw [pElems_dumps y ys g _ rest hwy
        (by simp only [needA] at hf ⊢; omega)
        (by rw [skipWs_space, List.append_assoc]; exact skipWs_dumps_append y _) hrest]
      rfl
termination_by x xs _ _ _ => sizeOf (JArr.cons x xs)

theorem pMems_dumps : ∀ (k : Bytes) (v : Json) (ms : JObj) (f : Nat) (s rest : Bytes),
    (JObj.cons k v ms).wfO = true → needM (JObj.cons k v ms) ≤ f →
    skipWs s = 34 :: (escStr k ++ (34 :: 58 :: 32 :: (dumps v ++ (dumpsObjTail ms ++
      125 :: rest)))) →
    numDelim rest = true →
    pMems f s = some (JObj.cons k v ms, rest)
  | k, v, ms, f, s, rest => fun hwf hf hs hrest => by
    obtain ⟨g, rfl⟩ : ∃ g, f = g + 1 := ⟨f - 1, by simp only [needM] at hf; omega⟩
    have hw0 := hwf
    simp only [JObj.wfO, Bool.and_eq_true, Bool.not_eq_true'] at hw0
    obtain ⟨⟨⟨hwk, hwv⟩, hwhk⟩, hwms⟩ := hw0
    rw [pMems, hs]
    dsimp only
    rw [if_pos rfl]
    have hstr : parseStrBody (escStr k ++ (34 :: 58 :: 32 :: (dumps v ++
        (dumpsObjTail ms ++ 125 :: rest)))) =
        some (k, 58 :: 32 :: (dumps v ++ (dumpsObjTail ms ++ 125 :: rest))) :=
      parseStrBody_escStr k _ hwk
    rw [hstr]
    dsimp only
    rw [skipWs_not_ws _ (by decide)]
    rw [show ((58 : Nat) :: (32 :: (dumps v ++ (dumpsObjTail ms ++ 125 :: rest)))).head? =
      some 58 from rfl]
    rw [if_pos rfl]
    have hdelim : numDelim (dumpsObjTail ms ++ 125 :: rest) = true := by
      cases ms with
      | nil => rw [show dumpsObjTail .nil = [] from rfl, List.nil_append]; rfl
      | cons k2 v2 ms2 =>
        rw [show dumpsObjTail (.cons k2 v2 ms2) =
          44 :: 32 :: (34 :: escStr k2 ++ [34, 58, 32]) ++ dumps v2 ++ dumpsObjTail ms2
          from rfl]
        rfl
    rw [pVal_dumps v g _ (dumpsObjTail ms ++ 125 :: rest) hwv
      (by simp only [needM] at hf; omega)
      (by rw [show ((58 : Nat) :: (32 :: (dumps v ++ (dumpsObjTail ms ++
        125 :: rest)))).tail = 32 :: (dumps v ++ (dumpsObjTail ms ++ 125 :: rest))
        from rfl, skipWs_space]; exact skipWs_dumps_append v _) hdelim]
    dsimp only
    cases ms with
    | nil =>
      rw [show dumpsObjTail .nil = [] from rfl, List.nil_append,
        skipWs_not_ws _ (by decide)]
      rw [show (125 :: rest).head? = some 125 from rfl]
      rw [if_neg (by decide), if_pos rfl]
      rfl
    | cons k2 v2 ms2 =>
      rw [show dumpsObjTail (.cons k2 v2 ms2) =
        44 :: 32 :: ((34 :: escStr k2 ++ [34, 58, 32]) ++ dumps v2 ++ dumpsObjTail ms2)
        from rfl]
      rw [List.cons_append, List.cons_append, skipWs_not_ws _ (by decide)]
      rw [show ((44 : Nat) :: (32 :: (((34 :: escStr k2 ++ [34, 58, 32]) ++ dumps v2 ++
        dumpsObjTail ms2) ++ 125 :: rest))).head? = some 44 from rfl]
      rw [if_pos rfl]
      have hw2 : (JObj.cons k2 v2 ms2).wfO = true := hwms
      have hshape : skipWs (((44 : Nat) :: (32 :: (((34 :: escStr k2 ++ [34, 58, 32]) ++
          dumps v2 ++ dumpsObjTail ms2) ++ 125 :: rest))).tail) =
          34 :: (escStr k2 ++ (34 :: 58 :: 32 :: (dumps v2 ++ (dumpsObjTail ms2 ++
            125 :: rest)))) := by
        rw [show ((44 : Nat) :: (32 :: (((34 :: escStr k2 ++ [34, 58, 32]) ++ dumps v2 ++
          dumpsObjTail ms2) ++ 125 :: rest))).tail = 32 :: (((34 :: escStr k2 ++
          [34, 58, 32]) ++ dumps v2 ++ dumpsObjTail ms2) ++ 125 :: rest) from rfl,
          skipWs_space]
        have : ((34 :: escStr k2 ++ [34, 58, 32]) ++ dumps v2 ++ dumpsObjTail ms2) ++
            125 :: rest = 34 :: (escStr k2 ++ (34 :: 58 :: 32 :: (dumps v2 ++
            (dumpsObjTail ms2 ++ 125 :: rest)))) := by
          simp [List.append_assoc]
        rw [this, skipWs_not_ws _ (by decide)]
      rw [pMems_dumps k2 v2 ms2 g _ rest hw2
        (by simp only [needM] at hf ⊢; omega) hshape hrest]
      simp only [Option.map_some']
      rw [mergeFront_not_mem v (by
        have := hwhk
        simp only [JObj.hasKey] at this
        exact Option.not_isSome_iff_eq_none.mp (by simp [this]))]
termination_by k v ms _ _ _ => sizeOf (JObj.cons k v ms)

end

theorem parseJson_dumps (j : Json) (h : j.wf = true) : parseJson (dumps j) = some j := by
  rw [parseJson]
  have hskip : skipWs (dumps j) = dumps j ++ [] := by
    rw [List.append_nil]
    have := skipWs_dumps_append j []
    rwa [List.append_nil] at this
  rw [pVal_dumps j ((dumps j).length + 1) (dumps j) [] h (needJ_le j) hskip rfl]
  simp [skipWs]

/-! ### ASCII output of the serializer, hex, lower, and XOR -/

theorem hexDig_range (d : Nat) (h : d < 16) :
    (48 ≤ hexDig d ∧ hexDig d ≤ 57) ∨ (97 ≤ hexDig d ∧ hexDig d ≤ 102) := by
  rw [hexDig]
  by_cases h10 : d < 10
  · rw [if_pos h10]; omega
  · rw [if_neg h10]; omega

theorem hexDig_lt128 (d : Nat) (h : d < 16) : hexDig d < 128 := by
  rw [hexDig]
  split
  all_goals omega

theorem toHex4_ascii (c : Nat) : ∀ b ∈ toHex4 c, b < 128 := by
  intro b hb
  have h1 := hexDig_lt128 (c / 4096 % 16) (Nat.mod_lt _ (by norm_num))
  have h2 := hexDig_lt128 (c / 256 % 16) (Nat.mod_lt _ (by norm_num))
  have h3 := hexDig_lt128 (c / 16 % 16) (Nat.mod_lt _ (by norm_num))
  have h4 := hexDig_lt128 (c % 16) (Nat.mod_lt _ (by norm_num))
  rw [toHex4] at hb
  rcases List.mem_cons.mp hb with rfl | hb
  · omega
  rcases List.mem_cons.mp hb with rfl | hb
  · omega
  rcases List.mem_cons.mp hb with rfl | hb
  · omega
  rcases List.mem_cons.mp hb with rfl | hb
  · omega
  simp at hb

theorem escChar_ascii (c : Nat) : ∀ b ∈ escChar c, b < 128 := by
  rw [escChar]
  split
  · decide
  split
  · decide
  split
  · decide
  split
  · decide
  split
  · decide
  split
  · decide
  split
  · decide
  split
  · intro b hb
    simp at hb
    omega
  split
  · exact List.forall_mem_cons.mpr ⟨by omega, List.forall_mem_cons.mpr
      ⟨by omega, toHex4_ascii c⟩⟩
  · exact List.forall_mem_append.mpr
      ⟨List.forall_mem_cons.mpr ⟨by omega, List.forall_mem_cons.mpr
        ⟨by omega, toHex4_ascii _⟩⟩,
       List.forall_mem_cons.mpr ⟨by omega, List.forall_mem_cons.mpr
        ⟨by omega, toHex4_ascii _⟩⟩⟩

theorem escStr_ascii (s : Bytes) : ∀ b ∈ escStr s, b < 128 := by
  induction s with
  | nil => intro b hb; simp [escStr] at hb
  | cons c cs ih =>
    rw [escStr]
    exact List.forall_mem_append.mpr ⟨escChar_ascii c, ih⟩

theorem intToDec_ascii (i : Int) : ∀ b ∈ intToDec i, b < 128 := by
  have hd : ∀ b ∈ natToDec i.natAbs, b < 128 := by
    intro b hb
    have := natToDec_digits i.natAbs b hb
    simp [isDigit] at this
    omega
  rw [intToDec]
  split
  · exact List.forall_mem_cons.mpr ⟨by omega, hd⟩
  · exact hd

mutual

theorem dumps_ascii : ∀ j : Json, ∀ b ∈ dumps j, b < 128
  | .null => by decide
  | .bool true => by decide
  | .bool false => by decide
  | .num i => intToDec_ascii i
  | .str s => by
    rw [dumps]
    exact List.forall_mem_append.mpr
      ⟨List.forall_mem_cons.mpr ⟨by omega, escStr_ascii s⟩, by decide⟩
  | .arr .nil => by decide
  | .arr (.cons x xs) => by
    rw [dumps]
    exact List.forall_mem_append.mpr
      ⟨List.forall_mem_append.mpr
        ⟨List.forall_mem_cons.mpr ⟨by omega, dumps_ascii x⟩, dumpsArrTail_ascii xs⟩,
       by decide⟩
  | .obj .nil => by decide
  | .obj (.cons k v ms) => by
    rw [dumps]
    exact List.forall_mem_append.mpr
      ⟨List.forall_mem_append.mpr
        ⟨List.forall_mem_append.mpr
          ⟨List.forall_mem_cons.mpr
            ⟨by omega,
             List.forall_mem_append.mpr
              ⟨List.forall_mem_cons.mpr ⟨by omega, escStr_ascii k⟩, by decide⟩⟩,
           dumps_ascii v⟩,
         dumpsObjTail_ascii ms⟩,
       by decide⟩

theorem dumpsArrTail_ascii : ∀ l : JArr, ∀ b ∈ dumpsArrTail l, b < 128
  | .nil => by decide
  | .cons x xs => by
    rw [dumpsArrTail]
    exact List.forall_mem_append.mpr
      ⟨List.forall_mem_cons.mpr
        ⟨by omega, List.forall_mem_cons.mpr ⟨by omega, dumps_ascii x⟩⟩,
       dumpsArrTail_ascii xs⟩

theorem dumpsObjTail_ascii : ∀ ms : JObj, ∀ b ∈ dumpsObjTail ms, b < 128
  | .nil => by decide
  | .cons k v ms => by
    rw [dumpsObjTail]
    exact List.forall_mem_append.mpr
      ⟨List.forall_mem_append.mpr
        ⟨List.forall_mem_cons.mpr
          ⟨by omega,
           List.forall_mem_cons.mpr
            ⟨by omega,
             List.forall_mem_append.mpr
              ⟨List.forall_mem_cons.mpr ⟨by omega, escStr_ascii k⟩, by decide⟩⟩⟩,
         dumps_ascii v⟩,
       dumpsObjTail_ascii ms⟩

end

theorem utf8Step_lt128 (b : Nat) (r : Bytes) (h : b < 128) : utf8Step b r = some (b, 0) := by
  cases r with
  | nil => rw [utf8Step.eq_def]; dsimp only; rw [if_pos h]
  | cons c r1 => rw [utf8Step.eq_def]; dsimp only; rw [if_pos h]

theorem decodeUtf8_ascii (l : Bytes) (h : ∀ b ∈ l, b < 128) : decodeUtf8 l = some l := by
  induction l with
  | nil => rw [decodeUtf8]
  | cons b r ih =>
    have hb : b < 128 := h b (by simp)
    rw [decodeUtf8, utf8Step_lt128 b r hb]
    dsimp only
    rw [List.drop_zero, ih (fun c hc => h c (by simp [hc]))]
    rfl

/-! ### Hex round trip, lowercase, XOR involution -/

theorem jsonSafe_scalar {s : Bytes} (h : jsonSafe s = true) : s.all scalar = true := by
  rw [jsonSafe] at h
  rw [List.all_eq_true] at h ⊢
  intro c hc
  have := h c hc
  simp at this
  simp [scalar]
  omega

theorem escChar_safe {c : Nat} (h1 : 32 ≤ c) (h2 : c ≤ 126) (h3 : c ≠ 34) (h4 : c ≠ 92) :
    escChar c = [c] := by
  rw [escChar]
  rw [if_neg h3, if_neg h4, if_neg (by omega), if_neg (by omega), if_neg (by omega),
    if_neg (by omega), if_neg (by omega), if_pos ⟨h1, h2⟩]

theorem escStr_safe {s : Bytes} (h : jsonSafe s = true) : escStr s = s := by
  induction s with
  | nil => rfl
  | cons c cs ih =>
    rw [jsonSafe, List.all_cons, Bool.and_eq_true] at h
    obtain ⟨hc, hcs⟩ := h
    simp at hc
    rw [escStr, escChar_safe (by omega) (by omega) (by omega) (by omega),
      ih (by rw [jsonSafe]; exact hcs)]
    rfl

theorem bytesToHex_chars {l : Bytes} (hl : ∀ b ∈ l, b < 256) :
    ∀ c ∈ bytesToHex l, (48 ≤ c ∧ c ≤ 57) ∨ (97 ≤ c ∧ c ≤ 102) := by
  induction l with
  | nil => intro c hc; simp [bytesToHex] at hc
  | cons b r ih =>
    intro c hc
    have hb : b < 256 := hl b (by simp)
    rw [bytesToHex] at hc
    rcases List.mem_cons.mp hc with rfl | hc
    · exact hexDig_range _ (by omega)
    rcases List.mem_cons.mp hc with rfl | hc
    · exact hexDig_range _ (Nat.mod_lt _ (by norm_num))
    · exact ih (fun x hx => hl x (by simp [hx])) c hc

theorem jsonSafe_bytesToHex {l : Bytes} (hl : ∀ b ∈ l, b < 256) :
    jsonSafe (bytesToHex l) = true := by
  rw [jsonSafe, List.all_eq_true]
  intro c hc
  rcases bytesToHex_chars hl c hc with h | h
  all_goals simp; omega

theorem lowerPy_no_upper {s : Bytes} (h : ∀ c ∈ s, ¬(65 ≤ c ∧ c ≤ 90)) : lowerPy s = s := by
  rw [lowerPy]
  induction s with
  | nil => rfl
  | cons c cs ih =>
    rw [List.map_cons, if_neg (h c (by simp)), ih (fun x hx => h x (by simp [hx]))]

theorem lowerPy_bytesToHex {l : Bytes} (hl : ∀ b ∈ l, b < 256) :
    lowerPy (bytesToHex l) = bytesToHex l := by
  apply lowerPy_no_upper
  intro c hc
  rcases bytesToHex_chars hl c hc with h | h
  all_goals omega

theorem fromHexPairs_bytesToHex {l : Bytes} (hl : ∀ b ∈ l, b < 256) :
    fromHexPairs (bytesToHex l) = some l := by
  induction l with
  | nil => rfl
  | cons b r ih =>
    have hb : b < 256 := hl b (by simp)
    rw [bytesToHex, fromHexPairs]
    rw [hexVal_hexDig (by omega : b / 16 < 16),
      hexVal_hexDig (Nat.mod_lt _ (by norm_num) : b % 16 < 16)]
    rw [ih (fun x hx => hl x (by simp [hx]))]
    simp only [Option.map_some', Option.some.injEq, List.cons.injEq]
    refine ⟨by omega, trivial⟩

theorem toBytesBE_lt (w v : Nat) : ∀ b ∈ toBytesBE w v, b < 256 := by
  induction w generalizing v with
  | zero => intro b hb; simp [toBytesBE] at hb
  | succ w ih =>
    intro b hb
    rw [toBytesBE] at hb
    rcases List.mem_append.mp hb with h | h
    · exact ih (v / 256) b h
    · simp at h
      subst h
      exact Nat.mod_lt _ (by norm_num)

theorem sha256bytes_lt (m : Bytes) : ∀ b ∈ sha256bytes m, b < 256 := by
  intro b hb
  rw [sha256bytes] at hb
  rcases List.mem_flatten.mp hb with ⟨l, hl, hbl⟩
  rcases List.mem_map.mp hl with ⟨w, -, rfl⟩
  exact toBytesBE_lt 4 w b hbl

theorem getD_lt256 {l : Bytes} (h : ∀ b ∈ l, b < 256) (n : Nat) : l.getD n 0 < 256 := by
  induction l generalizing n with
  | nil => simp [List.getD]
  | cons a r ih =>
    cases n with
    | zero => exact h a (by simp)
    | succ n =>
      simp only [List.getD_cons_succ]
      exact ih (fun b hb => h b (by simp [hb])) n

theorem xorLoop_lt {key l : Bytes} (hk : ∀ b ∈ key, b < 256) (hl : ∀ b ∈ l, b < 256)
    (i : Nat) : ∀ b ∈ xorLoop key i l, b < 256 := by
  induction l generalizing i with
  | nil => intro b hb; simp [xorLoop] at hb
  | cons a r ih =>
    intro b hb
    rw [xorLoop] at hb
    rcases List.mem_cons.mp hb with rfl | hb
    · have h1 : a < 256 := hl a (by simp)
      have h2 : key.getD (i % key.length) 0 < 256 := getD_lt256 hk _
      calc a ^^^ key.getD (i % key.length) 0 < 2 ^ 8 :=
            Nat.xor_lt_two_pow (by omega) (by omega)
        _ = 256 := by norm_num
    · exact ih (fun x hx => hl x (by simp [hx])) (i + 1) b hb

theorem xor_encrypt_lt {key l : Bytes} (hk : ∀ b ∈ key, b < 256) (hl : ∀ b ∈ l, b < 256) :
    ∀ b ∈ xor_encrypt key l, b < 256 := by
  rw [xor_encrypt]
  split
  · exact hl
  · exact xorLoop_lt hk hl 0

theorem xorLoop_invol (key : Bytes) (l : Bytes) (i : Nat) :
    xorLoop key i (xorLoop key i l) = l := by
  induction l generalizing i with
  | nil => rfl
  | cons a r ih =>
    rw [xorLoop, xorLoop]
    rw [Nat.xor_cancel_right, ih (i + 1)]

theorem xor_encrypt_invol (key l : Bytes) : xor_encrypt key (xor_encrypt key l) = l := by
  rw [xor_encrypt, xor_encrypt]
  split
  · rfl
  · exact xorLoop_invol key l 0

/-! ### Decoding a serialized wrapper envelope -/

theorem wrapEnv_wf {p hs : Bytes} (hp : p.all scalar = true) (hh : hs.all scalar = true) :
    (wrapEnv p hs).wf = true := by
  simp +decide [wrapEnv, Json.wf, JObj.wfO, JObj.hasKey, JObj.get, hp, hh, encK,
    payloadK, hmacK, scalar]

theorem unpack_wrap (key p hs : Bytes) (hk : key ≠ []) (hp : jsonSafe p = true)
    (hh : jsonSafe hs = true) :
    unpack_payload key (dumps (wrapEnv p hs)) =
      match fromHexPairs p with
      | none => .error .badHexPayload
      | some enc =>
        if lowerPy (make_hmac key enc) ≠ lowerPy hs then .error .hmacMismatch
        else
          match decodeUtf8 (xor_encrypt key enc) with
          | none => .error .innerEncoding
          | some dcps =>
            match parseJson dcps with
            | none => .error .innerNotJson
            | some inner => .ok inner := by
  have hwf : (wrapEnv p hs).wf = true := wrapEnv_wf (jsonSafe_scalar hp) (jsonSafe_scalar hh)
  rw [unpack_payload]
  rw [decodeUtf8_ascii _ (dumps_ascii (wrapEnv p hs))]
  dsimp only
  rw [parseJson_dumps _ hwf]
  dsimp only
  rw [show wrapEnv p hs = Json.obj (.cons encK (.num 1) (.cons payloadK (.str p)
    (.cons hmacK (.str hs) .nil))) from rfl]
  dsimp only
  rw [show (JObj.cons encK (Json.num 1) (.cons payloadK (.str p)
    (.cons hmacK (.str hs) .nil))).get encK = some (Json.num 1) from rfl]
  rw [show pyEqOne (some (Json.num 1)) = true from rfl, if_pos rfl, if_neg hk]
  rw [show (JObj.cons encK (Json.num 1) (.cons payloadK (.str p)
    (.cons hmacK (.str hs) .nil))).get hmacK = some (Json.str hs) from rfl]
  rw [show (JObj.cons encK (Json.num 1) (.cons payloadK (.str p)
    (.cons hmacK (.str hs) .nil))).get payloadK = some (Json.str p) from rfl]
  rfl

theorem unpack_pack (key : Bytes) (M : Json) (hk : key ≠ []) (hkey : ∀ b ∈ key, b < 256)
    (hM : M.wf = true) : unpack_payload key (pack_payload key M) = .ok M := by
  rw [pack_payload]
  rw [if_neg hk]
  have hraw : ∀ b ∈ dumps M, b < 256 := fun b hb => by
    have := dumps_ascii M b hb
    omega
  have henc : ∀ b ∈ xor_encrypt key (dumps M), b < 256 := xor_encrypt_lt hkey hraw
  have hmhex : make_hmac key (xor_encrypt key (dumps M)) =
      bytesToHex (sha256bytes (key ++ xor_encrypt key (dumps M))) := by
    rw [make_hmac, if_neg hk]
    rfl
  have hsha := sha256bytes_lt (key ++ xor_encrypt key (dumps M))
  have hlowid : lowerPy (make_hmac key (xor_encrypt key (dumps M))) =
      make_hmac key (xor_encrypt key (dumps M)) := by
    rw [hmhex]
    exact lowerPy_bytesToHex hsha
  have hsafe_h : jsonSafe (lowerPy (make_hmac key (xor_encrypt key (dumps M)))) = true := by
    rw [hlowid, hmhex]
    exact jsonSafe_bytesToHex hsha
  rw [unpack_wrap key _ _ hk (jsonSafe_bytesToHex henc) hsafe_h]
  rw [fromHexPairs_bytesToHex henc]
  dsimp only
  simp only [hlowid]
  rw [if_neg (by simp)]
  rw [xor_encrypt_invol]
  rw [decodeUtf8_ascii _ (dumps_ascii M)]
  dsimp only
  rw [parseJson_dumps M hM]

theorem dumps_wrapEnv (p hs : Bytes) (hp : jsonSafe p = true) (hh : jsonSafe hs = true) :
    dumps (wrapEnv p hs) = wrapPrefix ++ (p ++ (wrapMid ++ (hs ++ wrapSuffix))) := by
  have hek : escStr encK = encK := escStr_safe (by decide)
  have hpk : escStr payloadK = payloadK := escStr_safe (by decide)
  have hhk : escStr hmacK = hmacK := escStr_safe (by decide)
  have h1 : intToDec 1 = [49] := by
    rw [intToDec, if_neg (by norm_num), natToDec_small (by norm_num)]
    norm_num
  rw [wrapEnv]
  simp only [dumps, dumpsObjTail, hek, hpk, hhk, escStr_safe hp, escStr_safe hh, h1]
  simp [wrapPrefix, wrapMid, wrapSuffix, encK, payloadK, hmacK, List.append_assoc]

theorem flipBitAt_append_left (mask : Nat) (l1 l2 : Bytes) (i : Nat) (h : i < l1.length) :
    flipBitAt mask i (l1 ++ l2) = flipBitAt mask i l1 ++ l2 := by
  induction l1 generalizing i with
  | nil => simp at h
  | cons b r ih =>
    cases i with
    | zero => simp [flipBitAt]
    | succ j =>
      have hj : j < r.length := by simpa using h
      simp [flipBitAt, ih j hj]

theorem flipBitAt_append_right (mask : Nat) (l1 l2 : Bytes) (i : Nat) (h : l1.length ≤ i) :
    flipBitAt mask i (l1 ++ l2) = l1 ++ flipBitAt mask (i - l1.length) l2 := by
  induction l1 generalizing i with
  | nil => simp
  | cons b r ih =>
    cases i with
    | zero => simp at h
    | succ j =>
      have hj : r.length ≤ j := by simpa using h
      simp [flipBitAt, ih j hj, Nat.succ_sub_succ]

/-! ### Claims about the codec -/

/-- Claim C1: for every JSON-serializable message `M` (a well-formed
value of the model) and every non-empty shared secret of bytes,
decoding the bytes produced by encoding `M` under that secret returns
`M` itself: `unpack_payload key (pack_payload key M) = .ok M`. -/
theorem claim1_encode_decode_roundtrip (key : Bytes) (M : Json) (hk : key ≠ [])
    (hkey : ∀ b ∈ key, b < 256) (hM : M.wf = true) :
    unpack_payload key (pack_payload key M) = .ok M :=
  unpack_pack key M hk hkey hM

theorem claim1_encode_decode_roundtrip_witness :
    ([107] : Bytes) ≠ [] ∧ (∀ b ∈ ([107] : Bytes), b < 256) ∧ pingMsg.wf = true ∧
    unpack_payload [107] (pack_payload [107] pingMsg) = .ok pingMsg :=
  ⟨by decide, by decide, by decide,
   claim1_encode_decode_roundtrip [107] pingMsg (by decide) (by decide) (by decide)⟩

/-- Claim C10: `unpack_payload` passes plaintext through regardless of
key configuration: any raw bytes that UTF-8 decode and JSON parse to a
value that is not a dict whose `enc` member compares equal to `1`
decode to that value unchanged, for every key — so an unencrypted
envelope is always processed, also by a keyed host. -/
theorem claim10_plaintext_passthrough (key raw cps : Bytes) (obj : Json)
    (hdec : decodeUtf8 raw = some cps) (hparse : parseJson cps = some obj)
    (hnotenc : ∀ ms, obj = .obj ms → pyEqOne (ms.get encK) = false) :
    unpack_payload key raw = .ok obj := by
  rw [unpack_payload, hdec]
  dsimp only
  rw [hparse]
  cases obj with
  | null => rfl
  | bool b => rfl
  | num i => rfl
  | str s => rfl
  | arr l => rfl
  | obj ms => simp [hnotenc ms rfl]

theorem claim10_plaintext_passthrough_witness :
    decodeUtf8 [49] = some [49] ∧ parseJson [49] = some (.num 1) ∧
    unpack_payload [107] [49] = .ok (.num 1) :=
  ⟨decodeUtf8_ascii [49] (by decide), by decide,
   claim10_plaintext_passthrough [107] [49] [49] (.num 1)
     (decodeUtf8_ascii [49] (by decide)) (by decide) (fun ms h => by simp at h)⟩

/-- Claim C2 (counterexample): flipping one bit of the wire bytes of a
valid envelope for `pingMsg` under key `[107]` — bit 5 of byte 28,
which turns the payload hex digit `b` into `B` — yields a different
ciphertext message that still decodes to the original plaintext rather
than failing with an HMAC mismatch, because both the hex decode and
the tag comparison are case-insensitive. -/
theorem claim2_counterexample :
    flipBitAt 32 28 (pack_payload [107] pingMsg) ≠ pack_payload [107] pingMsg ∧
    unpack_payload [107] (flipBitAt 32 28 (pack_payload [107] pingMsg)) = .ok pingMsg := by
  have hk : ([107] : Bytes) ≠ [] := by decide
  have h1 : intToDec 1 = [49] := by
    rw [intToDec, if_neg (by norm_num), natToDec_small (by norm_num)]
    norm_num
  have hkp : escStr pingK = pingK := escStr_safe (by decide)
  have hdm : dumps pingMsg = [123, 34, 112, 105, 110, 103, 34, 58, 32, 49, 125] := by
    simp only [pingMsg, dumps, dumpsObjTail, hkp, h1]
    rfl
  have henc : xor_encrypt [107] (dumps pingMsg) = [16, 73, 27, 2, 5, 12, 73, 81, 75, 90, 22] := by
    rw [hdm]
    rfl
  have hP : bytesToHex (xor_encrypt [107] (dumps pingMsg)) =
      [49, 48, 52, 57, 49, 98, 48, 50, 48, 53, 48, 99, 52, 57, 53, 49, 52, 98, 53, 97, 49, 54] := by
    rw [henc]
    rfl
  have hmhex : make_hmac [107] (xor_encrypt [107] (dumps pingMsg)) =
      bytesToHex (sha256bytes ([107] ++ xor_encrypt [107] (dumps pingMsg))) := by
    rw [make_hmac, if_neg hk]
    rfl
  have hsha := sha256bytes_lt ([107] ++ xor_encrypt [107] (dumps pingMsg))
  have hlowid : lowerPy (make_hmac [107] (xor_encrypt [107] (dumps pingMsg))) =
      make_hmac [107] (xor_encrypt [107] (dumps pingMsg)) := by
    rw [hmhex]
    exact lowerPy_bytesToHex hsha
  have hsafeH : jsonSafe (lowerPy (make_hmac [107] (xor_encrypt [107] (dumps pingMsg)))) = true := by
    rw [hlowid, hmhex]
    exact jsonSafe_bytesToHex hsha
  have hsafeP : jsonSafe
      [49, 48, 52, 57, 49, 98, 48, 50, 48, 53, 48, 99, 52, 57, 53, 49, 52, 98, 53, 97, 49, 54] =
      true := by decide
  have hsafeP' : jsonSafe
      [49, 48, 52, 57, 49, 66, 48, 50, 48, 53, 48, 99, 52, 57, 53, 49, 52, 98, 53, 97, 49, 54] =
      true := by decide
  have hpack : pack_payload [107] pingMsg =
      wrapPrefix ++
        ([49, 48, 52, 57, 49, 98, 48, 50, 48, 53, 48, 99, 52, 57, 53, 49, 52, 98, 53, 97, 49, 54] ++
          (wrapMid ++
            (lowerPy (make_hmac [107] (xor_encrypt [107] (dumps pingMsg))) ++ wrapSuffix))) := by
    rw [pack_payload, if_neg hk]
    show dumps (wrapEnv (bytesToHex (xor_encrypt [107] (dumps pingMsg)))
      (lowerPy (make_hmac [107] (xor_encrypt [107] (dumps pingMsg))))) = _
    rw [hP, dumps_wrapEnv _ _ hsafeP hsafeH]
  have hflip : flipBitAt 32 28 (pack_payload [107] pingMsg) =
      wrapPrefix ++
        ([49, 48, 52, 57, 49, 66, 48, 50, 48, 53, 48, 99, 52, 57, 53, 49, 52, 98, 53, 97, 49, 54] ++
          (wrapMid ++
            (lowerPy (make_hmac [107] (xor_encrypt [107] (dumps pingMsg))) ++ wrapSuffix))) := by
    rw [hpack]
    rw [flipBitAt_append_right 32 wrapPrefix _ 28 (by decide)]
    rw [(by decide : 28 - wrapPrefix.length = 5)]
    rw [flipBitAt_append_left 32
      [49, 48, 52, 57, 49, 98, 48, 50, 48, 53, 48, 99, 52, 57, 53, 49, 52, 98, 53, 97, 49, 54]
      _ 5 (by decide)]
    rw [(by decide :
      flipBitAt 32 5
        [49, 48, 52, 57, 49, 98, 48, 50, 48, 53, 48, 99, 52, 57, 53, 49, 52, 98, 53, 97, 49, 54] =
        [49, 48, 52, 57, 49, 66, 48, 50, 48, 53, 48, 99, 52, 57, 53, 49, 52, 98, 53, 97, 49, 54])]
  have hwire : flipBitAt 32 28 (pack_payload [107] pingMsg) =
      dumps (wrapEnv
        [49, 48, 52, 57, 49, 66, 48, 50, 48, 53, 48, 99, 52, 57, 53, 49, 52, 98, 53, 97, 49, 54]
        (lowerPy (make_hmac [107] (xor_encrypt [107] (dumps pingMsg))))) := by
    rw [hflip, dumps_wrapEnv _ _ hsafeP' hsafeH]
  constructor
  · rw [hflip, hpack]
    intro heq
    have h2 := List.append_cancel_left heq
    have h3 := List.append_cancel_right h2
    exact absurd h3 (by decide)
  · rw [hwire, unpack_wrap [107] _ _ hk hsafeP' hsafeH]
    rw [(show fromHexPairs
        [49, 48, 52, 57, 49, 66, 48, 50, 48, 53, 48, 99, 52, 57, 53, 49, 52, 98, 53, 97, 49, 54] =
        some (xor_encrypt [107] (dumps pingMsg)) by rw [henc]; rfl)]
    dsimp only
    simp only [hlowid]
    rw [if_neg (by simp)]
    rw [xor_encrypt_invol]
    rw [decodeUtf8_ascii _ (dumps_ascii pingMsg)]
    dsimp only
    rw [parseJson_dumps pingMsg (by decide)]

/-- Claim C2 (amended): decoding a wrapper `\x7b"enc": 1, "payload": p,
"hmac": hs\x7d` is governed solely by the hex decode of `p` and the
case-insensitive tag comparison, not by bit equality of the wire: a
non-hex payload fails with BadHexPayload; a payload whose recomputed
tag differs case-insensitively from `hs` fails with HmacMismatch and
yields no plaintext; and any payload/tag pair whose payload
hex-decodes to the original ciphertext with a case-insensitively
matching tag decodes to the original plaintext — so a bit flip that
only changes the case of a hex digit goes undetected. -/
theorem claim2_tag_gate (key p hs : Bytes) (M : Json) (hk : key ≠ [])
    (hM : M.wf = true) (hp : jsonSafe p = true) (hh : jsonSafe hs = true) :
    (fromHexPairs p = none →
      unpack_payload key (dumps (wrapEnv p hs)) = .error .badHexPayload) ∧
    (∀ enc, fromHexPairs p = some enc →
      lowerPy (make_hmac key enc) ≠ lowerPy hs →
      unpack_payload key (dumps (wrapEnv p hs)) = .error .hmacMismatch) ∧
    (fromHexPairs p = some (xor_encrypt key (dumps M)) →
      lowerPy (make_hmac key (xor_encrypt key (dumps M))) = lowerPy hs →
      unpack_payload key (dumps (wrapEnv p hs)) = .ok M) := by
  refine ⟨?_, ?_, ?_⟩
  · intro h0
    rw [unpack_wrap key p hs hk hp hh, h0]
  · intro enc he hne
    rw [unpack_wrap key p hs hk hp hh, he]
    dsimp only
    rw [if_pos hne]
  · intro he hEq
    rw [unpack_wrap key p hs hk hp hh, he]
    dsimp only
    rw [if_neg (by simp [hEq])]
    rw [xor_encrypt_invol]
    rw [decodeUtf8_ascii _ (dumps_ascii M)]
    dsimp only
    rw [parseJson_dumps M hM]

theorem claim2_tag_gate_witness :
    ([107] : Bytes) ≠ [] ∧ pingMsg.wf = true ∧ jsonSafe [122, 122] = true ∧
    jsonSafe ([] : Bytes) = true ∧ fromHexPairs [122, 122] = none ∧
    unpack_payload [107] (dumps (wrapEnv [122, 122] [])) = .error .badHexPayload :=
  ⟨by decide, by decide, by decide, by decide, by decide,
   (claim2_tag_gate [107] [122, 122] [] pingMsg (by decide) (by decide) (by decide)
     (by decide)).1 (by decide)⟩

/-! ### Claims about the history store -/

theorem removeOldestPings_filter_nonping (k : Nat) (l : List Entry) :
    (removeOldestPings k l).filter (fun e => !isPingE e) = l.filter (fun e => !isPingE e) := by
  induction l generalizing k with
  | nil => cases k <;> rfl
  | cons e rest ih =>
    cases k with
    | zero => rfl
    | succ j =>
      by_cases hp : isPingE e = true
      · simp [removeOldestPings, hp, List.filter_cons, ih]
      · simp [removeOldestPings, hp, List.filter_cons, ih]

theorem removeOldestPings_filter_ping (k : Nat) (l : List Entry) :
    (removeOldestPings k l).filter isPingE = (l.filter isPingE).drop k := by
  induction l generalizing k with
  | nil => cases k <;> simp [removeOldestPings]
  | cons e rest ih =>
    cases k with
    | zero => simp [removeOldestPings]
    | succ j =>
      by_cases hp : isPingE e = true
      · simp [removeOldestPings, hp, List.filter_cons, ih]
      · simp [removeOldestPings, hp, List.filter_cons, ih]

theorem record_history_list_eq (nowS dir : Bytes) (content : Json) (etype : Bytes)
    (lst : List Entry) :
    record_history_list nowS dir content etype lst =
      if etype = pingS ∧
          ((lst ++ [Entry.mk nowS dir content etype]).filter isPingE).length >
            MAX_PING_RECORDS_PER_PEER then
        removeOldestPings
          (((lst ++ [Entry.mk nowS dir content etype]).filter isPingE).length -
            MAX_PING_RECORDS_PER_PEER)
          (lst ++ [Entry.mk nowS dir content etype])
      else lst ++ [Entry.mk nowS dir content etype] := by
  rw [record_history_list]
  dsimp only
  by_cases he : etype = pingS
  · rw [if_pos he]
    by_cases hc : ((lst ++ [Entry.mk nowS dir content etype]).filter isPingE).length >
        MAX_PING_RECORDS_PER_PEER
    · rw [if_pos hc, if_pos ⟨he, hc⟩]
    · rw [if_neg hc, if_neg (by tauto)]
  · rw [if_neg he, if_neg (by tauto)]

theorem record_history_list_cap {lst : List Entry}
    (h : countPing lst ≤ MAX_PING_RECORDS_PER_PEER) (nowS dir : Bytes) (content : Json)
    (etype : Bytes) :
    countPing (record_history_list nowS dir content etype lst) ≤
      MAX_PING_RECORDS_PER_PEER := by
  rw [record_history_list_eq]
  by_cases hcond : etype = pingS ∧
      ((lst ++ [Entry.mk nowS dir content etype]).filter isPingE).length >
        MAX_PING_RECORDS_PER_PEER
  · rw [if_pos hcond, countPing, removeOldestPings_filter_ping, List.length_drop]
    omega
  · rw [if_neg hcond]
    rcases not_and_or.mp hcond with he | hlen
    · have hnil : (([Entry.mk nowS dir content etype] : List Entry).filter isPingE) = [] := by
        simp [isPingE, he]
      rw [countPing, List.filter_append, hnil, List.append_nil]
      exact h
    · rw [countPing]
      omega

theorem applyOps_cap (ops : List HOp) (hist : History)
    (h : ∀ p, countPing (hist p) ≤ MAX_PING_RECORDS_PER_PEER) (p : Bytes) :
    countPing (applyOps ops hist p) ≤ MAX_PING_RECORDS_PER_PEER := by
  induction ops generalizing hist with
  | nil => exact h p
  | cons op rest ih =>
    rw [applyOps]
    refine ih _ (fun q => ?_)
    rw [record_history]
    by_cases hq : q = op.peer
    · rw [if_pos hq]
      exact record_history_list_cap (h q) _ _ _ _
    · rw [if_neg hq]
      exact h q

/-- Claim C3: after any sequence of `record_history` calls starting
from the empty store, no peer's list ever holds more than
`MAX_PING_RECORDS_PER_PEER` ping entries; each single call leaves the
non-ping entries of the list exactly as append would, and its ping
entries are the appended list's pings with the excess over the cap
dropped from the front (the oldest first) — pruning only happens on a
ping append. -/
theorem claim3_ping_cap (ops : List HOp) (peer : Bytes) :
    countPing (applyOps ops (fun _ => []) peer) ≤ MAX_PING_RECORDS_PER_PEER ∧
    (∀ (nowS dir : Bytes) (content : Json) (etype : Bytes) (lst : List Entry),
      (record_history_list nowS dir content etype lst).filter (fun e => !isPingE e) =
        (lst ++ [Entry.mk nowS dir content etype]).filter (fun e => !isPingE e)) ∧
    (∀ (nowS dir : Bytes) (content : Json) (etype : Bytes) (lst : List Entry),
      (record_history_list nowS dir content etype lst).filter isPingE =
        ((lst ++ [Entry.mk nowS dir content etype]).filter isPingE).drop
          (if etype = pingS then
            ((lst ++ [Entry.mk nowS dir content etype]).filter isPingE).length -
              MAX_PING_RECORDS_PER_PEER
           else 0)) := by
  refine ⟨applyOps_cap ops (fun _ => []) (fun _ => by simp [countPing]) peer, ?_, ?_⟩
  · intro nowS dir content etype lst
    rw [record_history_list_eq]
    by_cases hcond : etype = pingS ∧
        ((lst ++ [Entry.mk nowS dir content etype]).filter isPingE).length >
          MAX_PING_RECORDS_PER_PEER
    · rw [if_pos hcond, removeOldestPings_filter_nonping]
    · rw [if_neg hcond]
  · intro nowS dir content etype lst
    rw [record_history_list_eq]
    by_cases he : etype = pingS
    · by_cases hc : ((lst ++ [Entry.mk nowS dir content etype]).filter isPingE).length >
          MAX_PING_RECORDS_PER_PEER
      · rw [if_pos ⟨he, hc⟩, if_pos he]
        exact removeOldestPings_filter_ping _ _
      · rw [if_neg (by tauto), if_pos he]
        rw [(by omega : ((lst ++ [Entry.mk nowS dir content etype]).filter isPingE).length -
          MAX_PING_RECORDS_PER_PEER = 0), List.drop_zero]
    · rw [if_neg (by tauto), if_neg he, List.drop_zero]

/-- Claim C7: for `n ≥ 1` (the UI only passes positive `n`) and any
peer with `L` entries, `keep_last_n n` leaves exactly `min n L`
entries, namely the final segment of the original list — the most
recent entries in their original relative order. -/
theorem claim7_retain_last_n (n : Nat) (hist : History) (p : Bytes) (hn : 1 ≤ n) :
    keep_last_n n hist p =
      (hist p).drop ((hist p).length - min n (hist p).length) ∧
    (keep_last_n n hist p).length = min n (hist p).length := by
  simp only [keep_last_n]
  by_cases hL : (hist p).length > n
  · rw [if_pos hL, pySliceLast, if_neg (by omega)]
    have hmin : min n (hist p).length = n := by omega
    rw [hmin]
    exact ⟨rfl, by rw [List.length_drop]; omega⟩
  · rw [if_neg hL]
    have hmin : min n (hist p).length = (hist p).length := by omega
    rw [hmin]
    exact ⟨by rw [Nat.sub_self, List.drop_zero], rfl⟩

theorem claim7_retain_last_n_witness :
    1 ≤ 1 ∧
    (keep_last_n 1 (fun _ => [⟨[], inS, .null, msgS⟩, ⟨[], outS, .null, pingS⟩]) [] =
      (([⟨[], inS, .null, msgS⟩, ⟨[], outS, .null, pingS⟩] : List Entry)).drop
        (([⟨[], inS, .null, msgS⟩, ⟨[], outS, .null, pingS⟩] : List Entry).length -
          min 1 ([⟨[], inS, .null, msgS⟩, ⟨[], outS, .null, pingS⟩] : List Entry).length) ∧
      (keep_last_n 1 (fun _ => [⟨[], inS, .null, msgS⟩, ⟨[], outS, .null, pingS⟩]) []).length =
        min 1 ([⟨[], inS, .null, msgS⟩, ⟨[], outS, .null, pingS⟩] : List Entry).length) :=
  ⟨by decide,
   claim7_retain_last_n 1 (fun _ => [⟨[], inS, .null, msgS⟩, ⟨[], outS, .null, pingS⟩]) []
     (by decide)⟩

theorem keepDaysLoop_filter (parseT : Bytes → Option Int) (cutoff : Int) (l : List Entry) :
    keepDaysLoop parseT cutoff l =
      l.filter fun e =>
        match parseT e.time with
        | none => false
        | some t => decide (cutoff ≤ t) := by
  induction l with
  | nil => rfl
  | cons e rest ih =>
    rw [keepDaysLoop, List.filter_cons]
    cases hpt : parseT e.time with
    | none => simpa [hpt] using ih
    | some t =>
      by_cases hct : cutoff ≤ t
      · simpa [hpt, hct] using ih
      · simpa [hpt, hct] using ih

/-- Claim C8: `keep_last_days` is a per-peer filter: an entry survives
exactly when its timestamp parses to a time at or after the cutoff
`now - d days`; entries strictly older than the cutoff and entries
whose timestamp fails to parse are removed, and the survivors keep
their original relative order. -/
theorem claim8_retain_last_days (parseT : Bytes → Option Int) (cutoff : Int)
    (hist : History) (p : Bytes) :
    keep_last_days parseT cutoff hist p =
      (hist p).filter fun e =>
        match parseT e.time with
        | none => false
        | some t => decide (cutoff ≤ t) :=
  keepDaysLoop_filter parseT cutoff (hist p)

/-! ### Claims about the connection handler -/

/-- Claim C4: on a received ping envelope the handler sends exactly one
pong reply `\x7b"pong": 1, "rtt_ms": 0\x7d` — but, contrary to the
stated behaviour, it appends nothing to the history store: the history
after handling is the history before, so no ping-kind, direction-in
entry is ever recorded for the sender. -/
theorem claim4_ping_pong_but_no_history_entry (key nowS ip raw : Bytes) (srcPort : Nat)
    (st : HState) (ms : JObj) (hdec : unpack_payload key raw = .ok (.obj ms))
    (hping : ms.hasKey pingK = true) :
    (handle_conn key nowS ip srcPort st raw).2.sent = [pack_payload key pongObj] ∧
    (handle_conn key nowS ip srcPort st raw).1.history = st.history ∧
    (handle_conn key nowS ip srcPort st raw).2.displayed = [] := by
  rw [handle_conn, hdec]
  dsimp only
  rw [handleDecoded]
  dsimp only
  rw [if_pos hping]
  exact ⟨rfl, rfl, rfl⟩

theorem claim4_ping_pong_but_no_history_entry_witness :
    unpack_payload [] (dumps pingMsg) = .ok (.obj (.cons pingK (.num 1) .nil)) ∧
    (JObj.cons pingK (.num 1) .nil).hasKey pingK = true ∧
    (handle_conn [] [] [] 0 ⟨fun _ => none, fun _ => []⟩ (dumps pingMsg)).2.sent =
      [pack_payload [] pongObj] ∧
    (handle_conn [] [] [] 0 ⟨fun _ => none, fun _ => []⟩ (dumps pingMsg)).1.history =
      (⟨fun _ => none, fun _ => []⟩ : HState).history ∧
    (handle_conn [] [] [] 0 ⟨fun _ => none, fun _ => []⟩ (dumps pingMsg)).2.displayed = [] := by
  have hdec : unpack_payload [] (dumps pingMsg) = .ok (.obj (.cons pingK (.num 1) .nil)) := by
    rw [unpack_payload, decodeUtf8_ascii _ (dumps_ascii pingMsg)]
    dsimp only
    rw [parseJson_dumps pingMsg (by decide)]
    rfl
  obtain ⟨h1, h2, h3⟩ := claim4_ping_pong_but_no_history_entry [] [] [] (dumps pingMsg) 0
    ⟨fun _ => none, fun _ => []⟩ (.cons pingK (.num 1) .nil) hdec (by decide)
  exact ⟨hdec, by decide, h1, h2, h3⟩

/-- Claim C6 (counterexample): the envelope `\x7b"name": "bob"\x7d`
contains none of the keys `ping`, `pong`, `msg`, yet handling it is not
effect-free: the name-saving block that runs before classification
creates a registry record for the sender (name, port from the source
address, online flag, last-seen stamp), so the peer registry changes. -/
theorem claim6_counterexample :
    unpack_payload [] (dumps (Json.obj (.cons nameK (.str [98, 111, 98]) .nil))) =
      .ok (.obj (.cons nameK (.str [98, 111, 98]) .nil)) ∧
    (JObj.cons nameK (.str [98, 111, 98]) .nil).hasKey pingK = false ∧
    (JObj.cons nameK (.str [98, 111, 98]) .nil).hasKey pongK = false ∧
    (JObj.cons nameK (.str [98, 111, 98]) .nil).hasKey msgK = false ∧
    (handle_conn [] [110] [97] 5 ⟨fun _ => none, fun _ => []⟩
        (dumps (Json.obj (.cons nameK (.str [98, 111, 98]) .nil)))).1.peers [97] =
      some ⟨some (.num 5), some true, some (.str [98, 111, 98]), some [110]⟩ ∧
    (fun _ => none : Peers) [97] = none := by
  have hdec : unpack_payload [] (dumps (Json.obj (.cons nameK (.str [98, 111, 98]) .nil))) =
      .ok (.obj (.cons nameK (.str [98, 111, 98]) .nil)) := by
    rw [unpack_payload,
      decodeUtf8_ascii _ (dumps_ascii (Json.obj (.cons nameK (.str [98, 111, 98]) .nil)))]
    dsimp only
    rw [parseJson_dumps (Json.obj (.cons nameK (.str [98, 111, 98]) .nil)) (by decide)]
    rfl
  refine ⟨hdec, by decide, by decide, by decide, ?_, rfl⟩
  rw [handle_conn, hdec]
  dsimp only
  decide

/-- Claim C6 (amended): for a decoded dict envelope with none of the
keys `ping`, `pong`, `msg`, the handler records no history, sends
nothing and displays nothing, and the peer registry changes only
through the name-saving block; in particular when the dict has no
truthy `name` member the registry is untouched as well. -/
theorem claim6_unknown_frame (key nowS ip raw : Bytes) (srcPort : Nat) (st : HState)
    (ms : JObj) (hdec : unpack_payload key raw = .ok (.obj ms))
    (hping : ms.hasKey pingK = false) (hpong : ms.hasKey pongK = false)
    (hmsg : ms.hasKey msgK = false) :
    (handle_conn key nowS ip srcPort st raw).1.history = st.history ∧
    (handle_conn key nowS ip srcPort st raw).2 = ⟨[], []⟩ ∧
    (handle_conn key nowS ip srcPort st raw).1.peers =
      storeNameStep nowS ip srcPort (.obj ms) st.peers ∧
    ((∀ nv, ms.get nameK = some nv → pyTruthy nv = false) →
      (handle_conn key nowS ip srcPort st raw).1.peers = st.peers) := by
  rw [handle_conn, hdec]
  dsimp only
  rw [handleDecoded]
  dsimp only
  rw [if_neg (by simp [hping]), if_neg (by simp [hpong]), if_neg (by simp [hmsg])]
  refine ⟨rfl, rfl, rfl, fun hfalsy => ?_⟩
  show storeNameStep nowS ip srcPort (.obj ms) st.peers = st.peers
  rw [storeNameStep]
  dsimp only
  cases hn : ms.get nameK with
  | none => rfl
  | some nv => simp [hfalsy nv hn]

theorem claim6_unknown_frame_witness :
    unpack_payload [] (dumps (Json.obj .nil)) = .ok (.obj .nil) ∧
    (JObj.nil).hasKey pingK = false ∧
    (JObj.nil).hasKey pongK = false ∧
    (JObj.nil).hasKey msgK = false ∧
    (handle_conn [] [110] [97] 5 ⟨fun _ => none, fun _ => []⟩ (dumps (Json.obj .nil))).1.history =
      (⟨fun _ => none, fun _ => []⟩ : HState).history ∧
    (handle_conn [] [110] [97] 5 ⟨fun _ => none, fun _ => []⟩ (dumps (Json.obj .nil))).2 =
      ⟨[], []⟩ ∧
    (handle_conn [] [110] [97] 5 ⟨fun _ => none, fun _ => []⟩ (dumps (Json.obj .nil))).1.peers =
      (⟨fun _ => none, fun _ => []⟩ : HState).peers := by
  have hdec : unpack_payload [] (dumps (Json.obj .nil)) = .ok (.obj .nil) := by
    rw [unpack_payload, decodeUtf8_ascii _ (dumps_ascii (Json.obj .nil))]
    dsimp only
    rw [parseJson_dumps (Json.obj .nil) (by decide)]
    rfl
  obtain ⟨h1, h2, _, h4⟩ := claim6_unknown_frame [] [110] [97] (dumps (Json.obj .nil)) 5
    ⟨fun _ => none, fun _ => []⟩ .nil hdec (by decide) (by decide) (by decide)
  exact ⟨hdec, by decide, by decide, by decide, h1, h2, h4 (fun nv h => by simp [JObj.get] at h)⟩

/-- Claim C9 (counterexample): a chat envelope whose content is the
probe marker but which carries no `from_port` field — here
`\x7b"msg": "__TEST_REPLY__"\x7d` into an empty state — records no
history and displays nothing, but it also does not update the sender's
peer record at all: `sender_port` is `None`, so the online flag and
port are never stored and the registry still has no entry for the
sender. -/
theorem claim9_counterexample :
    unpack_payload [] (dumps (Json.obj (.cons msgK (.str markerS) .nil))) =
      .ok (.obj (.cons msgK (.str markerS) .nil)) ∧
    (handle_conn [] [110] [97] 5 ⟨fun _ => none, fun _ => []⟩
        (dumps (Json.obj (.cons msgK (.str markerS) .nil)))).1.peers [97] = none ∧
    (handle_conn [] [110] [97] 5 ⟨fun _ => none, fun _ => []⟩
        (dumps (Json.obj (.cons msgK (.str markerS) .nil)))).1.history [97] = [] ∧
    (handle_conn [] [110] [97] 5 ⟨fun _ => none, fun _ => []⟩
        (dumps (Json.obj (.cons msgK (.str markerS) .nil)))).2 = ⟨[], []⟩ := by
  have hdec : unpack_payload [] (dumps (Json.obj (.cons msgK (.str markerS) .nil))) =
      .ok (.obj (.cons msgK (.str markerS) .nil)) := by
    rw [unpack_payload,
      decodeUtf8_ascii _ (dumps_ascii (Json.obj (.cons msgK (.str markerS) .nil)))]
    dsimp only
    rw [parseJson_dumps (Json.obj (.cons msgK (.str markerS) .nil)) (by decide)]
    rfl
  refine ⟨hdec, ?_, ?_, ?_⟩ <;> rw [handle_conn, hdec] <;> dsimp only <;> decide

/-- Claim C9 (amended): a chat envelope whose `msg` member is exactly
the probe marker string records no history entry, displays nothing and
sends nothing; the sender's peer record is updated only by the
name-saving block and by `chatPeerStep`, which touches the registry
exactly when the parsed `from_port` value is truthy — with no truthy
`from_port` (and no truthy `name`) the registry is left unchanged. -/
theorem claim9_marker_no_record (key nowS ip raw : Bytes) (srcPort : Nat) (st : HState)
    (ms : JObj) (hdec : unpack_payload key raw = .ok (.obj ms))
    (hping : ms.hasKey pingK = false) (hpong : ms.hasKey pongK = false)
    (hmsg : ms.get msgK = some (.str markerS)) :
    (handle_conn key nowS ip srcPort st raw).1.history = st.history ∧
    (handle_conn key nowS ip srcPort st raw).2 = ⟨[], []⟩ ∧
    (handle_conn key nowS ip srcPort st raw).1.peers =
      chatPeerStep ip (senderPortVal ms) (storeNameStep nowS ip srcPort (.obj ms) st.peers) := by
  rw [handle_conn, hdec]
  dsimp only
  rw [handleDecoded]
  dsimp only
  rw [if_neg (by simp [hping]), if_neg (by simp [hpong]),
    if_pos (by simp [JObj.hasKey, hmsg]), hmsg]
  dsimp only
  rw [if_pos rfl]
  exact ⟨rfl, rfl, rfl⟩

theorem claim9_marker_no_record_witness :
    unpack_payload [] (dumps (Json.obj (.cons msgK (.str markerS) .nil))) =
      .ok (.obj (.cons msgK (.str markerS) .nil)) ∧
    (JObj.cons msgK (.str markerS) .nil).hasKey pingK = false ∧
    (JObj.cons msgK (.str markerS) .nil).hasKey pongK = false ∧
    (JObj.cons msgK (.str markerS) .nil).get msgK = some (.str markerS) ∧
    (handle_conn [] [110] [98, 98] 5 ⟨fun _ => none, fun _ => []⟩
        (dumps (Json.obj (.cons msgK (.str markerS) .nil)))).1.history =
      (⟨fun _ => none, fun _ => []⟩ : HState).history ∧
    (handle_conn [] [110] [98, 98] 5 ⟨fun _ => none, fun _ => []⟩
        (dumps (Json.obj (.cons msgK (.str markerS) .nil)))).2 = ⟨[], []⟩ ∧
    (handle_conn [] [110] [98, 98] 5 ⟨fun _ => none, fun _ => []⟩
        (dumps (Json.obj (.cons msgK (.str markerS) .nil)))).1.peers =
      chatPeerStep [98, 98] (senderPortVal (.cons msgK (.str markerS) .nil))
        (storeNameStep [110] [98, 98] 5 (.obj (.cons msgK (.str markerS) .nil))
          (fun _ => none)) := by
  have hdec : unpack_payload [] (dumps (Json.obj (.cons msgK (.str markerS) .nil))) =
      .ok (.obj (.cons msgK (.str markerS) .nil)) := by
    rw [unpack_payload,
      decodeUtf8_ascii _ (dumps_ascii (Json.obj (.cons msgK (.str markerS) .nil)))]
    dsimp only
    rw [parseJson_dumps (Json.obj (.cons msgK (.str markerS) .nil)) (by decide)]
    rfl
  obtain ⟨h1, h2, h3⟩ := claim9_marker_no_record [] [110] [98, 98]
    (dumps (Json.obj (.cons msgK (.str markerS) .nil))) 5 ⟨fun _ => none, fun _ => []⟩
    (.cons msgK (.str markerS) .nil) hdec (by decide) (by decide) (by decide)
  exact ⟨hdec, by decide, by decide, by decide, h1, h2, h3⟩

/-! ### Claims about the liveness scan -/

/-- Claim C5 (counterexample): with `parseT` mapping `"a"` to time `0`
and `"b"` to time `110`, at scan time `120` the scan over two
registered peers with truthy ports probes exactly the peer last seen
`10` seconds ago and skips the peer last seen `120` seconds ago — the
grace-window rule of the claim is inverted: recently-seen peers are
probed and stale peers are skipped. -/
theorem claim5_counterexample :
    tdSeconds (120 - 0) > 60 ∧
    ¬ tdSeconds (120 - 110) > 60 ∧
    check_peers_probes (fun s => if s = [97] then some (0 : Int) else some (110 : Int)) 120
      [([65], ⟨some (.num 9), none, none, some [97]⟩),
       ([66], ⟨some (.num 9), none, none, some [98]⟩)] = [[66]] := by
  refine ⟨by decide, by decide, ?_⟩
  decide

/-- Claim C5 (amended): in one scan, a registered peer whose `last_seen`
parses to a time whose elapsed seconds component at scan time exceeds
60 is skipped (not probed); a peer within the 60-second window that has
a truthy port is probed. The grace window therefore suppresses probes
of stale peers, not of recently-seen ones. -/
theorem claim5_skip_rule (parseT : Bytes → Option Int) (nowT : Int) (ip : Bytes)
    (r : PeerRec) (rest : List (Bytes × PeerRec)) (t : Int) (s : Bytes)
    (hls : r.last_seen = some s) (hpt : parseT s = some t) :
    (tdSeconds (nowT - t) > 60 →
      check_peers_probes parseT nowT ((ip, r) :: rest) =
        check_peers_probes parseT nowT rest) ∧
    (tdSeconds (nowT - t) ≤ 60 → (∃ v, r.port = some v ∧ pyTruthy v = true) →
      check_peers_probes parseT nowT ((ip, r) :: rest) =
        ip :: check_peers_probes parseT nowT rest) := by
  constructor
  · intro hgt
    rw [check_peers_probes, if_neg (by simp [check_peers_step, hls, hpt, hgt])]
  · intro hle hex
    obtain ⟨v, hv, htv⟩ := hex
    rw [check_peers_probes, if_pos ?hstep]
    case hstep =>
      simp only [check_peers_step, hls, hpt, hv, htv, Bool.and_eq_true, Bool.not_eq_true',
        decide_eq_false_iff_not, not_lt]
      exact ⟨hle, trivial⟩

theorem claim5_skip_rule_witness :
    (⟨some (.num 9), none, none, some [97]⟩ : PeerRec).last_seen = some [97] ∧
    (fun _ : Bytes => some (0 : Int)) [97] = some 0 ∧
    tdSeconds (120 - 0) > 60 ∧
    check_peers_probes (fun _ => some 0) 120
        [([65], ⟨some (.num 9), none, none, some [97]⟩)] =
      check_peers_probes (fun _ => some 0) 120 [] :=
  ⟨rfl, rfl, by decide,
   (claim5_skip_rule (fun _ => some 0) 120 [65] ⟨some (.num 9), none, none, some [97]⟩ [] 0 [97]
     rfl rfl).1 (by decide)⟩

end Chat
